import Mathlib

/-!
# A verification development for the cborpath CBORPath engine

This file gives a shallow embedding, in Lean 4, of the core of the
`cborpath` crate: the CBOR value model, the path AST
(`src/cbor_path.rs`), the evaluation engine (`read` / `get_paths`), the
structural equality function `value_equals`, the comparison primitives of
the filter sub-language, and the streaming mutation visitor
(`src/write_visitor.rs`).

Modelling conventions:

* A CBOR item (`cbor_data::Cbor`) is modelled structurally by the
  inductive `CborVal`.  The byte-level `PartialEq` of `cbor_data::Cbor`
  (comparison of encoded bytes) is modelled as structural equality of
  `CborVal` trees, which is exact for canonically encoded documents.
  IEEE floats and the `Undefined` simple value are outside the embedding.

* Machine integers: the selector offsets are Rust `isize` values,
  modelled as `Int`; array lengths are `usize`, modelled as `Nat`.  The
  points where the Rust code performs a cast (`as usize`) or an
  operation that wraps in release builds (`usize` subtraction in
  `take(end - start)`, `isize` addition) are modelled explicitly with
  two's-complement wrapping at 64 bits (`iwrap`, `usizeOfInt`, `usub`).

* Fallible points are modelled with `Option`: a `none` result of an
  evaluation function models a Rust panic (the only source is the
  `% 0` remainder in `SliceSelector` when `step == 0`); `Option` layers
  inside `some` model genuinely optional values of the source.
-/

set_option maxHeartbeats 1000000

namespace CborPath

/-- Structural model of a decoded CBOR item (`cbor_data::Cbor` /
`ItemKind`): positive and negative integers (the `neg n` constructor
denotes the CBOR negative integer with magnitude argument `n`, i.e. the
number `-1-n`, exactly like `ItemKind::Neg`), booleans, simple values,
byte strings, text strings, null, arrays and maps.  Maps are ordered
lists of key/value pairs; keys are not required to be unique. -/
inductive CborVal : Type where
  | pos (n : Nat)
  | neg (n : Nat)
  | bool (b : Bool)
  | simple (n : Nat)
  | bytes (bs : List Nat)
  | str (s : String)
  | null
  | array (items : List CborVal)
  | dict (entries : List (CborVal × CborVal))
  deriving Repr

namespace CborVal

mutual

/-- Structural (byte-level) equality of CBOR items: the model of the
derived `PartialEq` of `cbor_data::Cbor`, which compares encodings. -/
def beq : CborVal → CborVal → Bool
  | .pos n1, .pos n2 => n1 == n2
  | .neg n1, .neg n2 => n1 == n2
  | .bool b1, .bool b2 => b1 == b2
  | .simple n1, .simple n2 => n1 == n2
  | .bytes b1, .bytes b2 => b1 == b2
  | .str s1, .str s2 => s1 == s2
  | .null, .null => true
  | .array a1, .array a2 => beqList a1 a2
  | .dict d1, .dict d2 => beqEntries d1 d2
  | _, _ => false

/-- Element-wise structural equality of two lists of CBOR items. -/
def beqList : List CborVal → List CborVal → Bool
  | [], [] => true
  | v1 :: r1, v2 :: r2 => beq v1 v2 && beqList r1 r2
  | _, _ => false

/-- Entry-wise structural equality of two lists of map entries. -/
def beqEntries : List (CborVal × CborVal) → List (CborVal × CborVal) → Bool
  | [], [] => true
  | (k1, v1) :: r1, (k2, v2) :: r2 =>
    beq k1 k2 && beq v1 v2 && beqEntries r1 r2
  | _, _ => false

end

mutual

theorem eq_of_beq : ∀ (v1 v2 : CborVal), beq v1 v2 = true → v1 = v2
  | .pos _, v2 => by cases v2 <;> simp [beq]
  | .neg _, v2 => by cases v2 <;> simp [beq]
  | .bool _, v2 => by cases v2 <;> simp [beq]
  | .simple _, v2 => by cases v2 <;> simp [beq]
  | .bytes _, v2 => by cases v2 <;> simp [beq]
  | .str _, v2 => by cases v2 <;> simp [beq]
  | .null, v2 => by cases v2 <;> simp [beq]
  | .array a1, v2 => by
    cases v2 <;> simp [beq]
    exact eq_of_beqList a1 _
  | .dict d1, v2 => by
    cases v2 <;> simp [beq]
    exact eq_of_beqEntries d1 _

theorem eq_of_beqList : ∀ (l1 l2 : List CborVal), beqList l1 l2 = true → l1 = l2
  | [], l2 => by cases l2 <;> simp [beqList]
  | v1 :: r1, l2 => by
    cases l2 with
    | nil => simp [beqList]
    | cons v2 r2 =>
      simp only [beqList, Bool.and_eq_true]
      rintro ⟨h1, h2⟩
      rw [eq_of_beq v1 v2 h1, eq_of_beqList r1 r2 h2]

theorem eq_of_beqEntries :
    ∀ (l1 l2 : List (CborVal × CborVal)), beqEntries l1 l2 = true → l1 = l2
  | [], l2 => by cases l2 <;> simp [beqEntries]
  | (k1, v1) :: r1, l2 => by
    cases l2 with
    | nil => simp [beqEntries]
    | cons e2 r2 =>
      obtain ⟨k2, v2⟩ := e2
      simp only [beqEntries, Bool.and_eq_true]
      rintro ⟨⟨hk, hv⟩, hr⟩
      rw [eq_of_beq k1 k2 hk, eq_of_beq v1 v2 hv, eq_of_beqEntries r1 r2 hr]

end

mutual

theorem beq_refl : ∀ (v : CborVal), beq v v = true
  | .pos _ => by simp [beq]
  | .neg _ => by simp [beq]
  | .bool _ => by simp [beq]
  | .simple _ => by simp [beq]
  | .bytes _ => by simp [beq]
  | .str _ => by simp [beq]
  | .null => by simp [beq]
  | .array a => by simpa [beq] using beqList_refl a
  | .dict d => by simpa [beq] using beqEntries_refl d

theorem beqList_refl : ∀ (l : List CborVal), beqList l l = true
  | [] => by simp [beqList]
  | v :: r => by simp [beqList, beq_refl v, beqList_refl r]

theorem beqEntries_refl : ∀ (l : List (CborVal × CborVal)), beqEntries l l = true
  | [] => by simp [beqEntries]
  | (k, v) :: r => by
    simp [beqEntries, beq_refl k, beq_refl v, beqEntries_refl r]

end

instance : DecidableEq CborVal := fun a b =>
  if h : beq a b = true then .isTrue (eq_of_beq a b h)
  else .isFalse (fun he => h (he ▸ beq_refl a))

instance : BEq CborVal := ⟨beq⟩

instance : LawfulBEq CborVal where
  eq_of_beq {a b} h := eq_of_beq a b h
  rfl {a} := beq_refl a

@[simp] theorem beq_iff_eq_val (a b : CborVal) : (a == b) = true ↔ a = b :=
  ⟨fun h => eq_of_beq a b h, fun h => h ▸ beq_refl a⟩

/-- `d2.find_map(|(k, v)| if k == key { Some(v) } else { None })` on a
*partially consumed* map iterator: scans the remaining entries for the
first whose key is byte-equal (structurally equal in this model) to `k`,
and returns the associated value together with the iterator state after
the match (the entries following the matched one).  Models the Rust
iterator being advanced in place by `find_map`. -/
def findMapConsume (k : CborVal) :
    List (CborVal × CborVal) → Option (CborVal × List (CborVal × CborVal))
  | [] => none
  | (k2, v) :: rest =>
    if k2 == k then some (v, rest) else findMapConsume k rest

mutual

/-- Embedding of `value_equals` (src/cbor_path.rs lines 746-775).
Scalars compare by value within the same kind; arrays compare by length
and element-wise byte equality (`v1 == v2`, structural equality here);
maps compare by cardinality, and each key of the first map is looked up
with `find_map` in the second map's iterator, which is consumed
progressively: a successful lookup advances the second iterator past the
matched entry, so later keys are only searched in the remaining suffix.
The matched values are compared with `value_equals` recursively. -/
def valueEquals : CborVal → CborVal → Bool
  | .pos n1, .pos n2 => n1 == n2
  | .neg n1, .neg n2 => n1 == n2
  | .bool b1, .bool b2 => b1 == b2
  | .simple n1, .simple n2 => n1 == n2
  | .bytes b1, .bytes b2 => b1 == b2
  | .str s1, .str s2 => s1 == s2
  | .null, .null => true
  | .array a1, .array a2 =>
    a1.length == a2.length && (a1.zip a2).all (fun p => p.1 == p.2)
  | .dict d1, .dict d2 => d1.length == d2.length && valueEqualsEntries d1 d2
  | _, _ => false

/-- The `d1.all(|(key, v1)| ...)` loop of `value_equals`, with the
second argument holding the current state of the second map's
iterator. -/
def valueEqualsEntries :
    List (CborVal × CborVal) → List (CborVal × CborVal) → Bool
  | [], _ => true
  | (k, v1) :: rest, d2 =>
    match findMapConsume k d2 with
    | some (v2, d2') => valueEquals v1 v2 && valueEqualsEntries rest d2'
    | none => false

end

theorem findMapConsume_length {k v : CborVal} :
    ∀ {l l' : List (CborVal × CborVal)},
      findMapConsume k l = some (v, l') → l'.length < l.length := by
  intro l
  induction l with
  | nil => intro l' h; simp [findMapConsume] at h
  | cons e rest ih =>
    intro l' h
    obtain ⟨k2, w⟩ := e
    by_cases hk : (k2 == k) = true
    · simp [findMapConsume, hk] at h
      simp [h.2.symm]
    · simp only [findMapConsume, hk, if_false] at h
      exact Nat.lt_trans (ih h) (by simp)

theorem valueEqualsEntries_length :
    ∀ (l1 l2 : List (CborVal × CborVal)),
      valueEqualsEntries l1 l2 = true → l1.length ≤ l2.length := by
  intro l1
  induction l1 with
  | nil => intro l2 _; simp
  | cons e rest ih =>
    intro l2 h
    obtain ⟨k, v1⟩ := e
    rw [valueEqualsEntries] at h
    cases hf : findMapConsume k l2 with
    | none => rw [hf] at h; simp at h
    | some p =>
      obtain ⟨v2, l2'⟩ := p
      rw [hf] at h
      simp only [Bool.and_eq_true] at h
      have h1 := ih l2' h.2
      have h2 := findMapConsume_length (v := v2) hf
      simpa using Nat.lt_of_le_of_lt h1 h2

mutual

theorem eq_of_valueEquals :
    ∀ (v1 v2 : CborVal), valueEquals v1 v2 = true → v1 = v2
  | .pos _, v2 => by cases v2 <;> simp [valueEquals]
  | .neg _, v2 => by cases v2 <;> simp [valueEquals]
  | .bool _, v2 => by cases v2 <;> simp [valueEquals]
  | .simple _, v2 => by cases v2 <;> simp [valueEquals]
  | .bytes _, v2 => by cases v2 <;> simp [valueEquals]
  | .str _, v2 => by cases v2 <;> simp [valueEquals]
  | .null, v2 => by cases v2 <;> simp [valueEquals]
  | .array a1, v2 => by
    cases v2 with
    | array a2 =>
      simp only [valueEquals, Bool.and_eq_true, beq_iff_eq, array.injEq]
      rintro ⟨hlen, hall⟩
      exact eq_of_zip_beq a1 a2 hlen hall
    | _ => simp [valueEquals]
  | .dict d1, v2 => by
    cases v2 with
    | dict d2 =>
      simp only [valueEquals, Bool.and_eq_true, beq_iff_eq, dict.injEq]
      rintro ⟨hlen, hent⟩
      exact eq_of_valueEqualsEntries d1 d2 hlen hent
    | _ => simp [valueEquals]

theorem eq_of_zip_beq :
    ∀ (l1 l2 : List CborVal), l1.length = l2.length →
      (l1.zip l2).all (fun p => p.1 == p.2) = true → l1 = l2
  | [], [], _, _ => rfl
  | [], _ :: _, h, _ => by simp at h
  | _ :: _, [], h, _ => by simp at h
  | v1 :: r1, v2 :: r2, hlen, hall => by
    simp only [List.zip_cons_cons, List.all_cons, Bool.and_eq_true] at hall
    have hv : v1 = v2 := eq_of_beq v1 v2 hall.1
    have hr : r1 = r2 :=
      eq_of_zip_beq r1 r2 (by simpa using hlen) hall.2
    rw [hv, hr]

theorem eq_of_valueEqualsEntries :
    ∀ (l1 l2 : List (CborVal × CborVal)), l1.length = l2.length →
      valueEqualsEntries l1 l2 = true → l1 = l2
  | [], [], _, _ => rfl
  | [], _ :: _, h, _ => by simp at h
  | _ :: _, [], h, _ => by simp at h
  | (k, v1) :: r1, (k2, w) :: t, hlen, hent => by
    rw [valueEqualsEntries] at hent
    by_cases hk : (k2 == k) = true
    · simp only [findMapConsume, hk, if_true, Bool.and_eq_true] at hent
      have hkk : k2 = k := eq_of_beq k2 k hk
      have hv : v1 = w := eq_of_valueEquals v1 w hent.1
      have hr : r1 = t :=
        eq_of_valueEqualsEntries r1 t (by simpa using hlen) hent.2
      rw [hkk, hv, hr]
    · exfalso
      simp only [findMapConsume, hk, if_false] at hent
      cases hf : findMapConsume k t with
      | none => rw [hf] at hent; simp at hent
      | some p =>
        obtain ⟨v2, l2'⟩ := p
        rw [hf] at hent
        simp at hent
        -- the match sits strictly inside `t`, so too few entries remain
        have h1 := valueEqualsEntries_length r1 l2' hent.2
        have h2 := findMapConsume_length (v := v2) hf
        have : r1.length = t.length := by simpa using hlen
        omega

end

mutual

theorem valueEquals_refl : ∀ (v : CborVal), valueEquals v v = true
  | .pos _ => by simp [valueEquals]
  | .neg _ => by simp [valueEquals]
  | .bool _ => by simp [valueEquals]
  | .simple _ => by simp [valueEquals]
  | .bytes _ => by simp [valueEquals]
  | .str _ => by simp [valueEquals]
  | .null => by simp [valueEquals]
  | .array a => by
    rw [valueEquals]
    simp [zip_beq_refl a]
  | .dict d => by
    rw [valueEquals]
    simp [valueEqualsEntries_refl d]

theorem zip_beq_refl :
    ∀ (l : List CborVal), (l.zip l).all (fun p => p.1 == p.2) = true
  | [] => rfl
  | v :: r => by
    simp only [List.zip_cons_cons, List.all_cons, Bool.and_eq_true]
    exact ⟨beq_refl v, zip_beq_refl r⟩

theorem valueEqualsEntries_refl :
    ∀ (l : List (CborVal × CborVal)), valueEqualsEntries l l = true
  | [] => rfl
  | (k, v) :: r => by
    rw [valueEqualsEntries]
    simp [findMapConsume, valueEquals_refl v, valueEqualsEntries_refl r]

end

/-- `value_equals` coincides with structural identity of (float-free,
canonically encoded) CBOR values: the sequential consumption of the
second map's iterator forces each key of the first map to be found at
the head of what remains of the second, so map order matters. -/
theorem valueEquals_iff_eq (v1 v2 : CborVal) :
    valueEquals v1 v2 = true ↔ v1 = v2 :=
  ⟨eq_of_valueEquals v1 v2, fun h => h ▸ valueEquals_refl v1⟩

end CborVal

open CborVal

/-! ## Paths (locations) and resolution -/

/-- A path element of a result location (`PathElement`):
an index in a CBOR array or a key in a CBOR map. -/
inductive PathElem : Type where
  | index (i : Nat)
  | key (k : CborVal)
  deriving Repr, DecidableEq

/-- A result location (`Path`): the ordered sequence of path elements
leading from the document root to a matched node.  `append_index` /
`append_key` append on the right. -/
abbrev Path := List PathElem

/-- One resolution step of a location against a value: an index element
selects the element of an array at that position, a key element selects
the value of the first map entry with a structurally equal key. -/
def resolveStep (v : CborVal) : PathElem → Option CborVal
  | .index i =>
    match v with
    | .array items => items[i]?
    | _ => none
  | .key k =>
    match v with
    | .dict entries => (entries.find? (fun e => e.1 == k)).map (·.2)
    | _ => none

/-- Resolve a location against a document, step by step from the root. -/
def resolvePath (root : CborVal) (p : Path) : Option CborVal :=
  p.foldlM resolveStep root

/-! ## Machine integers

The selector offsets are Rust `isize` values and array lengths are
`usize`.  `iwrap` is two's-complement wrapping at 64 bits (the release
behaviour of overflowing `isize` arithmetic), `usizeOfInt` is the
`as usize` cast of a signed value, and `usub` is wrapping `usize`
subtraction (the release behaviour of `take(end - start)` when
`end < start`). -/

def ISIZE : Int := 2 ^ 63

def USIZE : Int := 2 ^ 64

/-- Two's-complement wrap of an integer into `[-2^63, 2^63)`. -/
def iwrap (x : Int) : Int := (x + ISIZE) % USIZE - ISIZE

/-- The `as usize` cast of a signed 64-bit value: reinterpret the two's
complement representation as an unsigned number. -/
def usizeOfInt (x : Int) : Nat := (x % USIZE).toNat

/-- Wrapping `usize` subtraction. -/
def usub (a b : Nat) : Nat := (((a : Int) - (b : Int)) % USIZE).toNat

/-- Embedding of `normalize_index` (src/cbor_path.rs lines 900-907):
a non-negative index is kept, a negative one is shifted by the array
length (`len as isize + i`, which wraps in release builds). -/
def normalizeIndex (i : Int) (len : Nat) : Int :=
  if 0 ≤ i then i else iwrap (iwrap len + i)

/-- `Iterator::step_by(s)`: keep the first element and then every
`s`-th element.  (The sources only call it with `s ≥ 1`.) -/
def stepBy {α : Type _} (s : Nat) : List α → List α
  | [] => []
  | x :: xs => x :: stepBy s (xs.drop (s - 1))
  termination_by l => l.length
  decreasing_by simp only [List.length_drop, List.length_cons]; omega

/-! ## The compiled path AST (src/cbor_path.rs)

`Selector`, `Segment`, `BooleanExpr`, `FilterPath`, `Comparable` and
`Function` are mutually recursive.  A compiled regular expression is
modelled by its matching predicate on strings. -/

inductive ComparisonOperator : Type where
  | eq | neq | gt | gte | lt | lte
  deriving Repr

/-- A singular segment (`SingularSegment`): key or index only. -/
inductive SingularSegment : Type where
  | key (k : CborVal)
  | index (i : Int)
  deriving Repr

/-- A singular path (`SingularPath`): absolute or relative list of
singular segments. -/
inductive SingularPath : Type where
  | abs (segments : List SingularSegment)
  | rel (segments : List SingularSegment)
  deriving Repr

mutual

/-- A selector (`Selector`). -/
inductive Selector : Type where
  | key (k : CborVal)
  | wildcard
  | index (i : Int)
  | slice (start endI step : Int)
  | filter (e : BooleanExpr)

/-- A segment (`Segment`): child or descendant. -/
inductive Segment : Type where
  | child (selectors : List Selector)
  | descendant (selectors : List Selector)

/-- A boolean filter expression (`BooleanExpr`). -/
inductive BooleanExpr : Type where
  | or (l r : BooleanExpr)
  | and (l r : BooleanExpr)
  | not (e : BooleanExpr)
  | comparison (l : Comparable) (op : ComparisonOperator) (r : Comparable)
  | path (p : FilterPath)
  | function (f : FunctionExpr)

/-- A path usable inside a filter (`FilterPath`): absolute or
relative. -/
inductive FilterPath : Type where
  | abs (segments : List Segment)
  | rel (segments : List Segment)

/-- A comparison operand (`Comparable`). -/
inductive Comparable : Type where
  | value (v : CborVal)
  | singularPath (p : SingularPath)
  | function (f : FunctionExpr)

/-- A function expression (`Function`); a regex is modelled by its
match predicate. -/
inductive FunctionExpr : Type where
  | length (c : Comparable)
  | count (p : FilterPath)
  | regex (c : Comparable) (m : String → Bool)

end

/-! ## Selector primitives that do not involve filters -/

/-- `KeySelector::read_single`: in a map, the value of the first entry
whose key is `value_equals`-equal to the selector's literal key;
anything else selects nothing. -/
def keyReadSingle (k : CborVal) (v : CborVal) : Option CborVal :=
  match v with
  | .dict entries =>
    entries.findSome? (fun e => if valueEquals e.1 k then some e.2 else none)
  | _ => none

/-- `KeySelector::get_path`: like `read_single`, pairing the result
with the location extended by the selector's literal key. -/
def keyGetPath (k : CborVal) (v : CborVal) (p : Path) : List (CborVal × Path) :=
  match keyReadSingle k v with
  | some v' => [(v', p ++ [.key k])]
  | none => []

/-- `WildcardSelector::read`: all values of a map or all elements of an
array, in order. -/
def wildcardRead (v : CborVal) : List CborVal :=
  match v with
  | .dict entries => entries.map (·.2)
  | .array items => items
  | _ => []

/-- `WildcardSelector::get_paths`. -/
def wildcardGetPaths (v : CborVal) (p : Path) : List (CborVal × Path) :=
  match v with
  | .dict entries => entries.map (fun e => (e.2, p ++ [.key e.1]))
  | .array items => items.enum.map (fun e => (e.2, p ++ [.index e.1]))
  | _ => []

/-- `IndexSelector::read_single`: normalize the signed index against
the array length, cast to `usize` and take the `nth` element. -/
def indexReadSingle (i : Int) (v : CborVal) : Option CborVal :=
  match v with
  | .array items =>
    items[usizeOfInt (normalizeIndex i items.length)]?
  | _ => none

/-- `IndexSelector::get_paths`. -/
def indexGetPaths (i : Int) (v : CborVal) (p : Path) : List (CborVal × Path) :=
  match v with
  | .array items =>
    let idx := usizeOfInt (normalizeIndex i items.length)
    match items[idx]? with
    | some v' => [(v', p ++ [.index idx])]
    | none => []
  | _ => []

/-- Embedding of `SliceSelector::read` (src/cbor_path.rs lines
510-544).  For `step > 0`: clamp the `usize` casts of the normalized
bounds to `len`, then `skip(start).take(end - start).step_by(step)`
with wrapping `usize` subtraction.  For `step < 0`: the window
`[actual_start, actual_end)` computed with Rust's truncated `%`, then
`step_by(-step)` and a final reversal.  For `step == 0` the expression
`start % -step` is a remainder by zero, a Rust panic: `none`. -/
def sliceRead (start endI step : Int) (v : CborVal) : Option (List CborVal) :=
  match v with
  | .array items =>
    let len := items.length
    let s := normalizeIndex start len
    let e := normalizeIndex endI len
    if 0 < step then
      let s' := min (usizeOfInt s) len
      let e' := min (usizeOfInt e) len
      some (stepBy (usizeOfInt step) ((items.drop s').take (usub e' s')))
    else if step = 0 then
      none
    else
      let negstep := iwrap (-step)
      let e1 := iwrap (e + 1)
      let actualStart :=
        min (usizeOfInt (iwrap (e1 + Int.tmod s negstep - Int.tmod e1 step))) len
      let actualEnd := min (usizeOfInt (iwrap (s + 1))) len
      some ((stepBy (usizeOfInt negstep)
        ((items.drop actualStart).take (usub actualEnd actualStart))).reverse)
  | _ => some []

/-- Embedding of `SliceSelector::get_paths` (src/cbor_path.rs lines
546-585): the same index computations over the `enumerate`d array, so
each selected element is paired with its original index; for `step < 0`
both collected lists are reversed together. -/
def sliceGetPaths (start endI step : Int) (v : CborVal) (p : Path) :
    Option (List (CborVal × Path)) :=
  match v with
  | .array items =>
    let len := items.length
    let s := normalizeIndex start len
    let e := normalizeIndex endI len
    if 0 < step then
      let s' := min (usizeOfInt s) len
      let e' := min (usizeOfInt e) len
      some ((stepBy (usizeOfInt step) ((items.enum.drop s').take (usub e' s'))).map
        (fun ix => (ix.2, p ++ [.index ix.1])))
    else if step = 0 then
      none
    else
      let negstep := iwrap (-step)
      let e1 := iwrap (e + 1)
      let actualStart :=
        min (usizeOfInt (iwrap (e1 + Int.tmod s negstep - Int.tmod e1 step))) len
      let actualEnd := min (usizeOfInt (iwrap (s + 1))) len
      some (((stepBy (usizeOfInt negstep)
        ((items.enum.drop actualStart).take (usub actualEnd actualStart))).map
          (fun ix => (ix.2, p ++ [.index ix.1]))).reverse)
  | _ => some []

/-- `SingularSegment::read`. -/
def singularSegmentRead (v : CborVal) : SingularSegment → Option CborVal
  | .key k => keyReadSingle k v
  | .index i => indexReadSingle i v

/-- `SingularPath::read_impl`: thread the value through the singular
segments, `none` as soon as one selects nothing. -/
def singularSegmentsRead (segments : List SingularSegment) (v : CborVal) :
    Option CborVal :=
  match segments with
  | [] => some v
  | seg :: rest =>
    match singularSegmentRead v seg with
    | some v' => singularSegmentsRead rest v'
    | none => none

/-- `SingularPath::read`: absolute paths start at the root, relative
paths at the current node. -/
def singularPathRead (root current : CborVal) : SingularPath → Option CborVal
  | .abs segments => singularSegmentsRead segments root
  | .rel segments => singularSegmentsRead segments current

mutual

/-- `Segment::fetch_descendants` (src/cbor_path.rs lines 316-332): all
children of a container first, then, in order, the descendants of each
child. -/
def fetchDescendants : CborVal → List CborVal
  | .array items => items ++ fetchDescList items
  | .dict entries => entries.map (·.2) ++ fetchDescEntries entries
  | _ => []

/-- Descendants of the elements of an array, concatenated in order. -/
def fetchDescList : List CborVal → List CborVal
  | [] => []
  | v :: rest => fetchDescendants v ++ fetchDescList rest

/-- Descendants of the values of a map, concatenated in order. -/
def fetchDescEntries : List (CborVal × CborVal) → List CborVal
  | [] => []
  | (_, v) :: rest => fetchDescendants v ++ fetchDescEntries rest

end

mutual

/-- `Segment::fetch_descendants_with_paths`: as `fetchDescendants`, each
descendant paired with its location below the starting node. -/
def fetchDescendantsWithPaths : CborVal → Path → List (CborVal × Path)
  | .array items, p =>
    items.enum.map (fun e => (e.2, p ++ [.index e.1])) ++
      fetchDescListWithPaths items 0 p
  | .dict entries, p =>
    entries.map (fun e => (e.2, p ++ [.key e.1])) ++
      fetchDescEntriesWithPaths entries p
  | _, _ => []

/-- Auxiliary for arrays: descendants of each element, the enumeration
index carried explicitly. -/
def fetchDescListWithPaths :
    List CborVal → Nat → Path → List (CborVal × Path)
  | [], _, _ => []
  | v :: rest, i, p =>
    fetchDescendantsWithPaths v (p ++ [.index i]) ++
      fetchDescListWithPaths rest (i + 1) p

/-- Auxiliary for maps: descendants of each keyed value. -/
def fetchDescEntriesWithPaths :
    List (CborVal × CborVal) → Path → List (CborVal × Path)
  | [], _ => []
  | (k, v) :: rest, p =>
    fetchDescendantsWithPaths v (p ++ [.key k]) ++ fetchDescEntriesWithPaths rest p

end

/-- `KeySelector::read`: the single result as a vector. -/
def keyRead (k : CborVal) (v : CborVal) : List CborVal :=
  match keyReadSingle k v with
  | some v' => [v']
  | none => []

/-- `IndexSelector::read`: the single result as a vector. -/
def indexRead (i : Int) (v : CborVal) : List CborVal :=
  match indexReadSingle i v with
  | some v' => [v']
  | none => []

/-- Lexicographic order on byte strings (`&[u8]` ordering). -/
def bytesLt : List Nat → List Nat → Bool
  | [], [] => false
  | [], _ :: _ => true
  | _ :: _, [] => false
  | a :: as, b :: bs => if a < b then true else if b < a then false else bytesLt as bs

/-- Lexicographic order on code points (`&str` ordering: UTF-8 byte
order, which equals code-point order). -/
def charsLt : List Char → List Char → Bool
  | [], [] => false
  | [], _ :: _ => true
  | _ :: _, [] => false
  | a :: as, b :: bs =>
    if a.val < b.val then true else if b.val < a.val then false else charsLt as bs

/-- `&str` ordering. -/
def strLt (s1 s2 : String) : Bool := charsLt s1.data s2.data

/-- The kind-matrix of `Comparable::lesser_than` (src/cbor_path.rs
lines 725-732) applied to two resolved operands: ordering is defined
only within a kind (`Pos`/`Neg`/`Bytes`/`Str` — `Float` is outside this
embedding); everything else, including an absent operand, is `false`.
Note that `Neg` compares the raw magnitude arguments. -/
def lesserKinds : Option CborVal → Option CborVal → Bool
  | some (.pos n1), some (.pos n2) => decide (n1 < n2)
  | some (.neg n1), some (.neg n2) => decide (n1 < n2)
  | some (.bytes b1), some (.bytes b2) => bytesLt b1 b2
  | some (.str s1), some (.str s2) => strLt s1 s2
  | _, _ => false

/-- The `(None, None) / (Some, Some) / mixed` matrix of
`Comparable::equals` (src/cbor_path.rs lines 711-715). -/
def equalsOpts : Option CborVal → Option CborVal → Bool
  | none, none => true
  | some v1, some v2 => valueEquals v1 v2
  | _, _ => false

/-- `current :: descendants` seeding of a `Descendant` segment
(src/cbor_path.rs lines 264-269): each current node itself followed by
all of its descendants. -/
def descendantsOf (currents : List CborVal) : List CborVal :=
  currents.flatMap (fun v => v :: fetchDescendants v)

/-- The paths-tracking variant of `descendantsOf`
(src/cbor_path.rs lines 296-301). -/
def descendantsOfWithPaths (currents : List (CborVal × Path)) :
    List (CborVal × Path) :=
  currents.flatMap (fun vp => vp :: fetchDescendantsWithPaths vp.1 vp.2)

theorem Comparable.sizeOf_pos (c : Comparable) : 0 < sizeOf c := by
  cases c <;> simp_arith

mutual

/-- Embedding of `BooleanExpr::read` (src/cbor_path.rs lines 658-670):
short-circuiting `||`/`&&`, negation, the comparison operators built
from `equals` and `lesser_than`, path existence and function calls. -/
def boolRead (root : CborVal) (e : BooleanExpr) (current : CborVal) :
    Option Bool :=
  match e with
  | .or l r => do
    let bl ← boolRead root l current
    if bl then some true else boolRead root r current
  | .and l r => do
    let bl ← boolRead root l current
    if bl then boolRead root r current else some false
  | .not e' => (boolRead root e' current).map (fun b => !b)
  | .comparison l op r =>
    match op with
    | .eq => compEquals root current l r
    | .neq => (compEquals root current l r).map (fun b => !b)
    | .gt => compLesser root current r l
    | .gte => do
      let b ← compLesser root current r l
      if b then some true else compEquals root current l r
    | .lt => compLesser root current l r
    | .lte => do
      let b ← compLesser root current l r
      if b then some true else compEquals root current l r
  | .path p => (filterPathEval root current p).map (fun l => !l.isEmpty)
  | .function f => funcAsBool root current f
  termination_by (sizeOf e, 0, 0)

/-- `Comparable::equals`: resolve both operands, then the
absent/present matrix with `value_equals` on two present nodes. -/
def compEquals (root current : CborVal) (c1 c2 : Comparable) : Option Bool :=
  do
    let o1 ← compRead root current c1
    let o2 ← compRead root current c2
    some (equalsOpts o1 o2)
  termination_by (sizeOf c1 + sizeOf c2, 0, 0)
  decreasing_by
    all_goals
      have h1 := Comparable.sizeOf_pos c1
      have h2 := Comparable.sizeOf_pos c2
      decreasing_tactic

/-- `Comparable::lesser_than`: resolve both operands, then the
within-kind ordering matrix (false if either operand is absent). -/
def compLesser (root current : CborVal) (c1 c2 : Comparable) : Option Bool :=
  do
    let o1 ← compRead root current c1
    let o2 ← compRead root current c2
    some (lesserKinds o1 o2)
  termination_by (sizeOf c1 + sizeOf c2, 0, 0)
  decreasing_by
    all_goals
      have h1 := Comparable.sizeOf_pos c1
      have h2 := Comparable.sizeOf_pos c2
      decreasing_tactic

/-- `Comparable::read`: a literal value is itself, a singular path
resolves to at most one node, a function may yield no value.  The outer
`Option` models a panic inside a nested `count` path. -/
def compRead (root current : CborVal) (c : Comparable) :
    Option (Option CborVal) :=
  match c with
  | .value v => some (some v)
  | .singularPath p => some (singularPathRead root current p)
  | .function f => funcAsComparable root current f
  termination_by (sizeOf c, 0, 0)

/-- `Function::read_as_comparable` (src/cbor_path.rs lines 868-897):
`length` of a resolved operand (count of entries/elements, byte length
of strings and byte strings, `1` for other present values, absent for
absent), `count` of a path's node list, and `None` (absent) for a regex
function in comparable position. -/
def funcAsComparable (root current : CborVal) (f : FunctionExpr) :
    Option (Option CborVal) :=
  match f with
  | .length c => do
    let oc ← compRead root current c
    match oc with
    | some (.array a) => some (some (.pos a.length))
    | some (.dict d) => some (some (.pos d.length))
    | some (.str s) => some (some (.pos s.utf8ByteSize))
    | some (.bytes b) => some (some (.pos b.length))
    | none => some none
    | some _ => some (some (.pos 1))
  | .count p => (filterPathEval root current p).map (fun l => some (.pos l.length))
  | .regex _ _ => some none
  termination_by (sizeOf f, 0, 0)

/-- `Function::read_as_boolean_expr` (src/cbor_path.rs lines 851-866):
a regex matches a resolved text-string operand (`false` otherwise);
`length`/`count` in boolean position are `false`. -/
def funcAsBool (root current : CborVal) (f : FunctionExpr) : Option Bool :=
  match f with
  | .regex c m => do
    let oc ← compRead root current c
    match oc with
    | some (.str s) => some (m s)
    | _ => some false
  | _ => some false
  termination_by (sizeOf f, 1, 0)

/-- `FilterPath::evaluate`: absolute paths from the root, relative
paths from the current node. -/
def filterPathEval (root current : CborVal) (p : FilterPath) :
    Option (List CborVal) :=
  match p with
  | .abs segments => absolutePathReadAux root segments
  | .rel segments => relativePathReadAux root current segments
  termination_by (sizeOf p, 0, 0)

/-- `AbsolutePath::read` (src/cbor_path.rs lines 169-184): an empty
segment list selects the root; otherwise the segments are reduced
left-to-right starting from `[root]`. -/
def absolutePathReadAux (root : CborVal) (segments : List Segment) :
    Option (List CborVal) :=
  match segments with
  | [] => some [root]
  | s :: rest => do
    let first ← segRead root s [root]
    segmentsReadAll root rest first
  termination_by (sizeOf segments, 1, 0)

/-- `RelativePath::evaluate` (src/cbor_path.rs lines 214-229): as the
absolute case, but seeded with the current node. -/
def relativePathReadAux (root current : CborVal) (segments : List Segment) :
    Option (List CborVal) :=
  match segments with
  | [] => some [current]
  | s :: rest => do
    let first ← segRead root s [current]
    segmentsReadAll root rest first
  termination_by (sizeOf segments, 1, 0)

/-- The left-to-right fold of segments over a current node list. -/
def segmentsReadAll (root : CborVal) (segments : List Segment)
    (currents : List CborVal) : Option (List CborVal) :=
  match segments with
  | [] => some currents
  | s :: rest => do
    let next ← segRead root s currents
    segmentsReadAll root rest next
  termination_by (sizeOf segments, 0, 0)

/-- `Segment::read` (src/cbor_path.rs lines 257-277): a child segment
applies every selector to every current node; a descendant segment
first expands each current node into itself plus its descendants. -/
def segRead (root : CborVal) (seg : Segment) (currents : List CborVal) :
    Option (List CborVal) :=
  match seg with
  | .child selectors => childReadAll root selectors currents
  | .descendant selectors => childReadAll root selectors (descendantsOf currents)
  termination_by (sizeOf seg, 0, 0)

/-- The `flat_map` over current nodes of `Segment::read`. -/
def childReadAll (root : CborVal) (selectors : List Selector)
    (currents : List CborVal) : Option (List CborVal) :=
  match currents with
  | [] => some []
  | c :: rest => do
    let vs ← selsReadFlat root selectors c
    let rest' ← childReadAll root selectors rest
    some (vs ++ rest')
  termination_by (sizeOf selectors, 1, currents.length)

/-- The inner `flat_map` over the selectors of a segment. -/
def selsReadFlat (root : CborVal) (selectors : List Selector)
    (current : CborVal) : Option (List CborVal) :=
  match selectors with
  | [] => some []
  | s :: rest => do
    let vs ← selRead root s current
    let rest' ← selsReadFlat root rest current
    some (vs ++ rest')
  termination_by (sizeOf selectors, 0, 0)

/-- `Selector::read` (src/cbor_path.rs lines 372-380). -/
def selRead (root : CborVal) (s : Selector) (current : CborVal) :
    Option (List CborVal) :=
  match s with
  | .key k => some (keyRead k current)
  | .wildcard => some (wildcardRead current)
  | .index i => some (indexRead i current)
  | .slice a b c => sliceRead a b c current
  | .filter e =>
    match current with
    | .array items => filterArrayRead root e items
    | .dict entries => filterDictRead root e entries
    | _ => some []
  termination_by (sizeOf s, 2, 0)

/-- `FilterSelector::read` over an array: keep the elements satisfying
the boolean expression (which is evaluated on every element, in
order). -/
def filterArrayRead (root : CborVal) (e : BooleanExpr)
    (items : List CborVal) : Option (List CborVal) :=
  match items with
  | [] => some []
  | v :: rest => do
    let b ← boolRead root e v
    let rest' ← filterArrayRead root e rest
    some (if b then v :: rest' else rest')
  termination_by (sizeOf e, 3, items.length)

/-- `FilterSelector::read` over a map: keep the entry values satisfying
the boolean expression. -/
def filterDictRead (root : CborVal) (e : BooleanExpr)
    (entries : List (CborVal × CborVal)) : Option (List CborVal) :=
  match entries with
  | [] => some []
  | (_, v) :: rest => do
    let b ← boolRead root e v
    let rest' ← filterDictRead root e rest
    some (if b then v :: rest' else rest')
  termination_by (sizeOf e, 3, entries.length)

/-- The left-to-right fold of segments over a current pair list
(`AbsolutePath::get_paths`, src/cbor_path.rs lines 186-204; the source
threads two parallel vectors zipped per segment, modelled here as one
list of pairs). -/
def segmentsGetPathsAll (root : CborVal) (segments : List Segment)
    (currents : List (CborVal × Path)) : Option (List (CborVal × Path)) :=
  match segments with
  | [] => some currents
  | s :: rest => do
    let next ← segGetPaths root s currents
    segmentsGetPathsAll root rest next
  termination_by (sizeOf segments, 0, 1)

/-- `Segment::get_paths` (src/cbor_path.rs lines 279-314). -/
def segGetPaths (root : CborVal) (seg : Segment)
    (currents : List (CborVal × Path)) : Option (List (CborVal × Path)) :=
  match seg with
  | .child selectors => childGetPathsAll root selectors currents
  | .descendant selectors =>
    childGetPathsAll root selectors (descendantsOfWithPaths currents)

/-- The `flat_map` over current pairs of `Segment::get_paths`. -/
def childGetPathsAll (root : CborVal) (selectors : List Selector)
    (currents : List (CborVal × Path)) : Option (List (CborVal × Path)) :=
  match currents with
  | [] => some []
  | c :: rest => do
    let vs ← selsGetPathsFlat root selectors c.1 c.2
    let rest' ← childGetPathsAll root selectors rest
    some (vs ++ rest')
  termination_by (sizeOf selectors, 2, currents.length)

/-- The inner `flat_map` over the selectors of `Segment::get_paths`. -/
def selsGetPathsFlat (root : CborVal) (selectors : List Selector)
    (current : CborVal) (path : Path) : Option (List (CborVal × Path)) :=
  match selectors with
  | [] => some []
  | s :: rest => do
    let vs ← selGetPaths root s current path
    let rest' ← selsGetPathsFlat root rest current path
    some (vs ++ rest')
  termination_by (sizeOf selectors, 0, 1)

/-- `Selector::get_paths` (src/cbor_path.rs lines 382-395). -/
def selGetPaths (root : CborVal) (s : Selector) (current : CborVal)
    (path : Path) : Option (List (CborVal × Path)) :=
  match s with
  | .key k => some (keyGetPath k current path)
  | .wildcard => some (wildcardGetPaths current path)
  | .index i => some (indexGetPaths i current path)
  | .slice a b c => sliceGetPaths a b c current path
  | .filter e =>
    match current with
    | .array items => filterArrayGetPaths root e items.enum path
    | .dict entries => filterDictGetPaths root e entries path
    | _ => some []

/-- `FilterSelector::get_paths` over an enumerated array. -/
def filterArrayGetPaths (root : CborVal) (e : BooleanExpr)
    (items : List (Nat × CborVal)) (path : Path) :
    Option (List (CborVal × Path)) :=
  match items with
  | [] => some []
  | (i, v) :: rest => do
    let b ← boolRead root e v
    let rest' ← filterArrayGetPaths root e rest path
    some (if b then (v, path ++ [.index i]) :: rest' else rest')
  termination_by (sizeOf e, 4, items.length)

/-- `FilterSelector::get_paths` over a map. -/
def filterDictGetPaths (root : CborVal) (e : BooleanExpr)
    (entries : List (CborVal × CborVal)) (path : Path) :
    Option (List (CborVal × Path)) :=
  match entries with
  | [] => some []
  | (k, v) :: rest => do
    let b ← boolRead root e v
    let rest' ← filterDictGetPaths root e rest path
    some (if b then (v, path ++ [.key k]) :: rest' else rest')
  termination_by (sizeOf e, 4, entries.length)

end

/-- `CborPath::read` / `AbsolutePath::read`: apply the compiled
segments to a document. -/
def cborPathRead (segments : List Segment) (root : CborVal) :
    Option (List CborVal) :=
  absolutePathReadAux root segments

/-- The internal node/location pair list of `AbsolutePath::get_paths`:
an empty segment list yields no pair at all (the source returns
`Vec::new()`); otherwise the first segment starts from the root paired
with the empty location. -/
def cborPathGetPathPairs (segments : List Segment) (root : CborVal) :
    Option (List (CborVal × Path)) :=
  match segments with
  | [] => some []
  | s :: rest => do
    let first ← segGetPaths root s [(root, [])]
    segmentsGetPathsAll root rest first

/-- `CborPath::get_paths` / `AbsolutePath::get_paths`: the locations of
all matched nodes. -/
def cborPathGetPaths (segments : List Segment) (root : CborVal) :
    Option (List Path) :=
  (cborPathGetPathPairs segments root).map (fun l => l.map (·.2))

/-! ## Slice-free-of-zero-step predicate (for claim C2) -/

mutual

/-- No slice selector below this selector has `step = 0`. -/
def selNoZeroStep : Selector → Bool
  | .key _ => true
  | .wildcard => true
  | .index _ => true
  | .slice _ _ step => !(step == 0)
  | .filter e => boolNoZeroStep e

/-- No slice selector in this list has `step = 0`. -/
def selsNoZeroStep : List Selector → Bool
  | [] => true
  | s :: rest => selNoZeroStep s && selsNoZeroStep rest

/-- No slice selector below this segment has `step = 0`. -/
def segNoZeroStep : Segment → Bool
  | .child selectors => selsNoZeroStep selectors
  | .descendant selectors => selsNoZeroStep selectors

/-- No slice selector in this segment list has `step = 0`. -/
def segsNoZeroStep : List Segment → Bool
  | [] => true
  | s :: rest => segNoZeroStep s && segsNoZeroStep rest

/-- No slice selector below this boolean expression has `step = 0`. -/
def boolNoZeroStep : BooleanExpr → Bool
  | .or l r => boolNoZeroStep l && boolNoZeroStep r
  | .and l r => boolNoZeroStep l && boolNoZeroStep r
  | .not e => boolNoZeroStep e
  | .comparison l _ r => compNoZeroStep l && compNoZeroStep r
  | .path p => pathNoZeroStep p
  | .function f => funcNoZeroStep f

/-- No slice selector below this filter path has `step = 0`. -/
def pathNoZeroStep : FilterPath → Bool
  | .abs segments => segsNoZeroStep segments
  | .rel segments => segsNoZeroStep segments

/-- No slice selector below this comparable has `step = 0`. -/
def compNoZeroStep : Comparable → Bool
  | .value _ => true
  | .singularPath _ => true
  | .function f => funcNoZeroStep f

/-- No slice selector below this function has `step = 0`. -/
def funcNoZeroStep : FunctionExpr → Bool
  | .length c => compNoZeroStep c
  | .count p => pathNoZeroStep p
  | .regex c _ => compNoZeroStep c

end

/-- A bound `Option` is `some` when the base is and every continuation
is. -/
theorem isSome_bind_of {α β : Type _} {a : Option α} {f : α → Option β}
    (ha : a.isSome) (hf : ∀ x, (f x).isSome) : (a.bind f).isSome := by
  cases a with
  | none => simp at ha
  | some x => simpa using hf x

/-- A slice selector with nonzero step never panics. -/
theorem sliceRead_isSome (start endI step : Int) (v : CborVal)
    (h : step ≠ 0) : (sliceRead start endI step v).isSome := by
  cases v <;> simp only [sliceRead] <;> try rfl
  split_ifs <;> rfl

/-- The paths variant of `sliceRead_isSome`. -/
theorem sliceGetPaths_isSome (start endI step : Int) (v : CborVal) (p : Path)
    (h : step ≠ 0) : (sliceGetPaths start endI step v p).isSome := by
  cases v <;> simp only [sliceGetPaths] <;> try rfl
  split_ifs <;> rfl

/-! ## Totality of evaluation for ASTs without zero-step slices
(claim C2) -/

mutual

theorem boolRead_isSome :
    ∀ (root : CborVal) (e : BooleanExpr) (current : CborVal),
      boolNoZeroStep e = true → (boolRead root e current).isSome
  | root, .or l r, current, h => by
    simp only [boolNoZeroStep, Bool.and_eq_true] at h
    rw [boolRead.eq_def]
    exact isSome_bind_of (boolRead_isSome root l current h.1)
      (fun b => by cases b
                   · simpa using boolRead_isSome root r current h.2
                   · rfl)
  | root, .and l r, current, h => by
    simp only [boolNoZeroStep, Bool.and_eq_true] at h
    rw [boolRead.eq_def]
    exact isSome_bind_of (boolRead_isSome root l current h.1)
      (fun b => by cases b
                   · rfl
                   · simpa using boolRead_isSome root r current h.2)
  | root, .not e, current, h => by
    simp only [boolNoZeroStep] at h
    rw [boolRead.eq_def]
    rw [Option.isSome_map']
    exact boolRead_isSome root e current h
  | root, .comparison l op r, current, h => by
    simp only [boolNoZeroStep, Bool.and_eq_true] at h
    rw [boolRead.eq_def]
    cases op with
    | eq => exact compEquals_isSome root current l r h.1 h.2
    | neq =>
      rw [Option.isSome_map']
      exact compEquals_isSome root current l r h.1 h.2
    | gt => exact compLesser_isSome root current r l h.2 h.1
    | gte =>
      exact isSome_bind_of (compLesser_isSome root current r l h.2 h.1)
        (fun b => by cases b
                     · simpa using compEquals_isSome root current l r h.1 h.2
                     · rfl)
    | lt => exact compLesser_isSome root current l r h.1 h.2
    | lte =>
      exact isSome_bind_of (compLesser_isSome root current l r h.1 h.2)
        (fun b => by cases b
                     · simpa using compEquals_isSome root current l r h.1 h.2
                     · rfl)
  | root, .path p, current, h => by
    simp only [boolNoZeroStep] at h
    rw [boolRead.eq_def]
    rw [Option.isSome_map']
    exact filterPathEval_isSome root current p h
  | root, .function f, current, h => by
    simp only [boolNoZeroStep] at h
    rw [boolRead.eq_def]
    exact funcAsBool_isSome root current f h
  termination_by root e current h => (sizeOf e, 0, 0)

theorem compEquals_isSome :
    ∀ (root current : CborVal) (c1 c2 : Comparable),
      compNoZeroStep c1 = true → compNoZeroStep c2 = true →
      (compEquals root current c1 c2).isSome
  | root, current, c1, c2, h1, h2 => by
    simp only [compEquals]
    exact isSome_bind_of (compRead_isSome root current c1 h1)
      (fun o1 => isSome_bind_of (compRead_isSome root current c2 h2)
        (fun o2 => rfl))
  termination_by root current c1 c2 h1 h2 => (sizeOf c1 + sizeOf c2, 0, 0)
  decreasing_by
    all_goals
      have hp1 := Comparable.sizeOf_pos c1
      have hp2 := Comparable.sizeOf_pos c2
      decreasing_tactic

theorem compLesser_isSome :
    ∀ (root current : CborVal) (c1 c2 : Comparable),
      compNoZeroStep c1 = true → compNoZeroStep c2 = true →
      (compLesser root current c1 c2).isSome
  | root, current, c1, c2, h1, h2 => by
    simp only [compLesser]
    exact isSome_bind_of (compRead_isSome root current c1 h1)
      (fun o1 => isSome_bind_of (compRead_isSome root current c2 h2)
        (fun o2 => rfl))
  termination_by root current c1 c2 h1 h2 => (sizeOf c1 + sizeOf c2, 0, 0)
  decreasing_by
    all_goals
      have hp1 := Comparable.sizeOf_pos c1
      have hp2 := Comparable.sizeOf_pos c2
      decreasing_tactic

theorem compRead_isSome :
    ∀ (root current : CborVal) (c : Comparable),
      compNoZeroStep c = true → (compRead root current c).isSome
  | root, current, .value v, _ => by simp [compRead]
  | root, current, .singularPath p, _ => by simp [compRead]
  | root, current, .function f, h => by
    simp only [compNoZeroStep] at h
    simp only [compRead]
    exact funcAsComparable_isSome root current f h
  termination_by root current c h => (sizeOf c, 0, 0)

theorem funcAsComparable_isSome :
    ∀ (root current : CborVal) (f : FunctionExpr),
      funcNoZeroStep f = true → (funcAsComparable root current f).isSome
  | root, current, .length c, h => by
    simp only [funcNoZeroStep] at h
    simp only [funcAsComparable]
    exact isSome_bind_of (compRead_isSome root current c h)
      (fun oc => by cases oc with
                    | none => rfl
                    | some v => cases v <;> rfl)
  | root, current, .count p, h => by
    simp only [funcNoZeroStep] at h
    simp only [funcAsComparable, Option.isSome_map']
    exact filterPathEval_isSome root current p h
  | root, current, .regex c m, h => by simp [funcAsComparable]
  termination_by root current f h => (sizeOf f, 0, 0)

theorem funcAsBool_isSome :
    ∀ (root current : CborVal) (f : FunctionExpr),
      funcNoZeroStep f = true → (funcAsBool root current f).isSome
  | root, current, .length c, h => by simp [funcAsBool]
  | root, current, .count p, h => by simp [funcAsBool]
  | root, current, .regex c m, h => by
    simp only [funcNoZeroStep] at h
    simp only [funcAsBool]
    exact isSome_bind_of (compRead_isSome root current c h)
      (fun oc => by cases oc with
                    | none => rfl
                    | some v => cases v <;> rfl)
  termination_by root current f h => (sizeOf f, 1, 0)

theorem filterPathEval_isSome :
    ∀ (root current : CborVal) (p : FilterPath),
      pathNoZeroStep p = true → (filterPathEval root current p).isSome
  | root, current, .abs segments, h => by
    simp only [pathNoZeroStep] at h
    simp only [filterPathEval]
    exact absolutePathReadAux_isSome root segments h
  | root, current, .rel segments, h => by
    simp only [pathNoZeroStep] at h
    simp only [filterPathEval]
    exact relativePathReadAux_isSome root current segments h
  termination_by root current p h => (sizeOf p, 0, 0)

theorem absolutePathReadAux_isSome :
    ∀ (root : CborVal) (segments : List Segment),
      segsNoZeroStep segments = true → (absolutePathReadAux root segments).isSome
  | root, [], _ => by simp [absolutePathReadAux]
  | root, s :: rest, h => by
    simp only [segsNoZeroStep, Bool.and_eq_true] at h
    simp only [absolutePathReadAux]
    exact isSome_bind_of (segRead_isSome root s [root] h.1)
      (fun first => segmentsReadAll_isSome root rest first h.2)
  termination_by root segments h => (sizeOf segments, 1, 0)

theorem relativePathReadAux_isSome :
    ∀ (root current : CborVal) (segments : List Segment),
      segsNoZeroStep segments = true →
      (relativePathReadAux root current segments).isSome
  | root, current, [], _ => by simp [relativePathReadAux]
  | root, current, s :: rest, h => by
    simp only [segsNoZeroStep, Bool.and_eq_true] at h
    simp only [relativePathReadAux]
    exact isSome_bind_of (segRead_isSome root s [current] h.1)
      (fun first => segmentsReadAll_isSome root rest first h.2)
  termination_by root current segments h => (sizeOf segments, 1, 0)

theorem segmentsReadAll_isSome :
    ∀ (root : CborVal) (segments : List Segment) (currents : List CborVal),
      segsNoZeroStep segments = true →
      (segmentsReadAll root segments currents).isSome
  | root, [], currents, _ => by simp [segmentsReadAll]
  | root, s :: rest, currents, h => by
    simp only [segsNoZeroStep, Bool.and_eq_true] at h
    simp only [segmentsReadAll]
    exact isSome_bind_of (segRead_isSome root s currents h.1)
      (fun next => segmentsReadAll_isSome root rest next h.2)
  termination_by root segments currents h => (sizeOf segments, 0, 0)

theorem segRead_isSome :
    ∀ (root : CborVal) (seg : Segment) (currents : List CborVal),
      segNoZeroStep seg = true → (segRead root seg currents).isSome
  | root, .child selectors, currents, h => by
    simp only [segNoZeroStep] at h
    simp only [segRead]
    exact childReadAll_isSome root selectors currents h
  | root, .descendant selectors, currents, h => by
    simp only [segNoZeroStep] at h
    simp only [segRead]
    exact childReadAll_isSome root selectors (descendantsOf currents) h
  termination_by root seg currents h => (sizeOf seg, 0, 0)

theorem childReadAll_isSome :
    ∀ (root : CborVal) (selectors : List Selector) (currents : List CborVal),
      selsNoZeroStep selectors = true →
      (childReadAll root selectors currents).isSome
  | root, selectors, [], _ => by simp [childReadAll]
  | root, selectors, c :: rest, h => by
    simp only [childReadAll]
    exact isSome_bind_of (selsReadFlat_isSome root selectors c h)
      (fun vs => isSome_bind_of (childReadAll_isSome root selectors rest h)
        (fun rest' => rfl))
  termination_by root selectors currents h => (sizeOf selectors, 1, currents.length)

theorem selsReadFlat_isSome :
    ∀ (root : CborVal) (selectors : List Selector) (current : CborVal),
      selsNoZeroStep selectors = true →
      (selsReadFlat root selectors current).isSome
  | root, [], current, _ => by simp [selsReadFlat]
  | root, s :: rest, current, h => by
    simp only [selsNoZeroStep, Bool.and_eq_true] at h
    simp only [selsReadFlat]
    exact isSome_bind_of (selRead_isSome root s current h.1)
      (fun vs => isSome_bind_of (selsReadFlat_isSome root rest current h.2)
        (fun rest' => rfl))
  termination_by root selectors current h => (sizeOf selectors, 0, 0)

theorem selRead_isSome :
    ∀ (root : CborVal) (s : Selector) (current : CborVal),
      selNoZeroStep s = true → (selRead root s current).isSome
  | root, .key k, current, _ => by simp [selRead]
  | root, .wildcard, current, _ => by simp [selRead]
  | root, .index i, current, _ => by simp [selRead]
  | root, .slice a b c, current, h => by
    simp only [selNoZeroStep, Bool.not_eq_true'] at h
    simp only [selRead]
    exact sliceRead_isSome a b c current (by simpa using h)
  | root, .filter e, current, h => by
    simp only [selNoZeroStep] at h
    cases current with
    | array items =>
      simp only [selRead]
      exact filterArrayRead_isSome root e items h
    | dict entries =>
      simp only [selRead]
      exact filterDictRead_isSome root e entries h
    | pos n => simp [selRead]
    | neg n => simp [selRead]
    | bool b => simp [selRead]
    | simple n => simp [selRead]
    | bytes bs => simp [selRead]
    | str s => simp [selRead]
    | null => simp [selRead]
  termination_by root s current h => (sizeOf s, 2, 0)

theorem filterArrayRead_isSome :
    ∀ (root : CborVal) (e : BooleanExpr) (items : List CborVal),
      boolNoZeroStep e = true → (filterArrayRead root e items).isSome
  | root, e, [], _ => by simp [filterArrayRead]
  | root, e, v :: rest, h => by
    simp only [filterArrayRead]
    exact isSome_bind_of (boolRead_isSome root e v h)
      (fun b => isSome_bind_of (filterArrayRead_isSome root e rest h)
        (fun rest' => rfl))
  termination_by root e items h => (sizeOf e, 3, items.length)

theorem filterDictRead_isSome :
    ∀ (root : CborVal) (e : BooleanExpr) (entries : List (CborVal × CborVal)),
      boolNoZeroStep e = true → (filterDictRead root e entries).isSome
  | root, e, [], _ => by simp [filterDictRead]
  | root, e, (k, v) :: rest, h => by
    simp only [filterDictRead]
    exact isSome_bind_of (boolRead_isSome root e v h)
      (fun b => isSome_bind_of (filterDictRead_isSome root e rest h)
        (fun rest' => rfl))
  termination_by root e entries h => (sizeOf e, 3, entries.length)

theorem segmentsGetPathsAll_isSome :
    ∀ (root : CborVal) (segments : List Segment)
      (currents : List (CborVal × Path)),
      segsNoZeroStep segments = true →
      (segmentsGetPathsAll root segments currents).isSome
  | root, [], currents, _ => by simp [segmentsGetPathsAll]
  | root, s :: rest, currents, h => by
    simp only [segsNoZeroStep, Bool.and_eq_true] at h
    simp only [segmentsGetPathsAll]
    exact isSome_bind_of (segGetPaths_isSome root s currents h.1)
      (fun next => segmentsGetPathsAll_isSome root rest next h.2)
  termination_by root segments currents h => (sizeOf segments, 0, 1)

theorem segGetPaths_isSome :
    ∀ (root : CborVal) (seg : Segment) (currents : List (CborVal × Path)),
      segNoZeroStep seg = true → (segGetPaths root seg currents).isSome
  | root, .child selectors, currents, h => by
    simp only [segNoZeroStep] at h
    simp only [segGetPaths]
    exact childGetPathsAll_isSome root selectors currents h
  | root, .descendant selectors, currents, h => by
    simp only [segNoZeroStep] at h
    simp only [segGetPaths]
    exact childGetPathsAll_isSome root selectors
      (descendantsOfWithPaths currents) h
  termination_by root seg currents h => (sizeOf seg, 0, 1)

theorem childGetPathsAll_isSome :
    ∀ (root : CborVal) (selectors : List Selector)
      (currents : List (CborVal × Path)),
      selsNoZeroStep selectors = true →
      (childGetPathsAll root selectors currents).isSome
  | root, selectors, [], _ => by simp [childGetPathsAll]
  | root, selectors, c :: rest, h => by
    simp only [childGetPathsAll]
    exact isSome_bind_of (selsGetPathsFlat_isSome root selectors c.1 c.2 h)
      (fun vs => isSome_bind_of (childGetPathsAll_isSome root selectors rest h)
        (fun rest' => rfl))
  termination_by root selectors currents h => (sizeOf selectors, 2, currents.length)

theorem selsGetPathsFlat_isSome :
    ∀ (root : CborVal) (selectors : List Selector) (current : CborVal)
      (path : Path),
      selsNoZeroStep selectors = true →
      (selsGetPathsFlat root selectors current path).isSome
  | root, [], current, path, _ => by simp [selsGetPathsFlat]
  | root, s :: rest, current, path, h => by
    simp only [selsNoZeroStep, Bool.and_eq_true] at h
    simp only [selsGetPathsFlat]
    exact isSome_bind_of (selGetPaths_isSome root s current path h.1)
      (fun vs => isSome_bind_of
        (selsGetPathsFlat_isSome root rest current path h.2)
        (fun rest' => rfl))
  termination_by root selectors current path h => (sizeOf selectors, 0, 1)

theorem selGetPaths_isSome :
    ∀ (root : CborVal) (s : Selector) (current : CborVal) (path : Path),
      selNoZeroStep s = true → (selGetPaths root s current path).isSome
  | root, .key k, current, path, _ => by simp [selGetPaths]
  | root, .wildcard, current, path, _ => by simp [selGetPaths]
  | root, .index i, current, path, _ => by simp [selGetPaths]
  | root, .slice a b c, current, path, h => by
    simp only [selNoZeroStep, Bool.not_eq_true'] at h
    simp only [selGetPaths]
    exact sliceGetPaths_isSome a b c current path (by simpa using h)
  | root, .filter e, current, path, h => by
    simp only [selNoZeroStep] at h
    cases current with
    | array items =>
      simp only [selGetPaths]
      exact filterArrayGetPaths_isSome root e items.enum path h
    | dict entries =>
      simp only [selGetPaths]
      exact filterDictGetPaths_isSome root e entries path h
    | pos n => simp [selGetPaths]
    | neg n => simp [selGetPaths]
    | bool b => simp [selGetPaths]
    | simple n => simp [selGetPaths]
    | bytes bs => simp [selGetPaths]
    | str s => simp [selGetPaths]
    | null => simp [selGetPaths]
  termination_by root s current path h => (sizeOf s, 2, 1)

theorem filterArrayGetPaths_isSome :
    ∀ (root : CborVal) (e : BooleanExpr) (items : List (Nat × CborVal))
      (path : Path),
      boolNoZeroStep e = true → (filterArrayGetPaths root e items path).isSome
  | root, e, [], path, _ => by simp [filterArrayGetPaths]
  | root, e, (i, v) :: rest, path, h => by
    simp only [filterArrayGetPaths]
    exact isSome_bind_of (boolRead_isSome root e v h)
      (fun b => isSome_bind_of
        (filterArrayGetPaths_isSome root e rest path h)
        (fun rest' => rfl))
  termination_by root e items path h => (sizeOf e, 4, items.length)

theorem filterDictGetPaths_isSome :
    ∀ (root : CborVal) (e : BooleanExpr)
      (entries : List (CborVal × CborVal)) (path : Path),
      boolNoZeroStep e = true → (filterDictGetPaths root e entries path).isSome
  | root, e, [], path, _ => by simp [filterDictGetPaths]
  | root, e, (k, v) :: rest, path, h => by
    simp only [filterDictGetPaths]
    exact isSome_bind_of (boolRead_isSome root e v h)
      (fun b => isSome_bind_of
        (filterDictGetPaths_isSome root e rest path h)
        (fun rest' => rfl))
  termination_by root e entries path h => (sizeOf e, 4, entries.length)

end

/-- The pair list of `get_paths` is `some` for ASTs without zero-step
slices. -/
theorem cborPathGetPathPairs_isSome (segments : List Segment) (doc : CborVal)
    (h : segsNoZeroStep segments = true) :
    (cborPathGetPathPairs segments doc).isSome := by
  cases segments with
  | nil => rfl
  | cons s rest =>
    simp only [segsNoZeroStep, Bool.and_eq_true] at h
    simp only [cborPathGetPathPairs]
    exact isSome_bind_of (segGetPaths_isSome doc s [(doc, [])] h.1)
      (fun first => segmentsGetPathsAll_isSome doc rest first h.2)

/-! ## Resolution of locations (for claim C1) -/

theorem resolvePath_cons (root : CborVal) (el : PathElem) (p : Path) :
    resolvePath root (el :: p) =
      (resolveStep root el).bind (fun v => resolvePath v p) := by
  cases h : resolveStep root el <;>
    simp [resolvePath, List.foldlM_cons, h]

theorem resolvePath_append_one (root : CborVal) (p : Path) (el : PathElem) :
    resolvePath root (p ++ [el]) =
      (resolvePath root p).bind (fun v => resolveStep v el) := by
  induction p generalizing root with
  | nil =>
    cases h : resolveStep root el <;> simp [resolvePath, List.foldlM_cons, h]
  | cons e p' ih =>
    rw [List.cons_append, resolvePath_cons, resolvePath_cons]
    cases resolveStep root e <;> simp [ih]

theorem resolvePath_array_child {root : CborVal} {p : Path}
    {items : List CborVal} {i : Nat} {v : CborVal}
    (hp : resolvePath root p = some (.array items)) (hi : items[i]? = some v) :
    resolvePath root (p ++ [.index i]) = some v := by
  rw [resolvePath_append_one, hp]
  simpa [resolveStep] using hi

/-- Whether the keys of a map entry list are pairwise distinct. -/
def keysDistinct : List (CborVal × CborVal) → Bool
  | [] => true
  | (k, _) :: rest => !(rest.any (fun e => e.1 == k)) && keysDistinct rest

mutual

/-- No map anywhere in this value (the value itself, or nested inside
array elements or map values) has duplicate keys. -/
def noDupKeys : CborVal → Bool
  | .array items => noDupKeysList items
  | .dict entries => keysDistinct entries && noDupKeysEntries entries
  | _ => true

/-- `noDupKeys` for every element of a list. -/
def noDupKeysList : List CborVal → Bool
  | [] => true
  | v :: rest => noDupKeys v && noDupKeysList rest

/-- `noDupKeys` for every value of a map entry list. -/
def noDupKeysEntries : List (CborVal × CborVal) → Bool
  | [] => true
  | (_, v) :: rest => noDupKeys v && noDupKeysEntries rest

end

theorem noDupKeysList_mem {items : List CborVal} {v : CborVal}
    (h : noDupKeysList items = true) (hv : v ∈ items) : noDupKeys v = true := by
  induction items with
  | nil => cases hv
  | cons x rest ih =>
    rw [noDupKeysList, Bool.and_eq_true] at h
    rcases List.mem_cons.mp hv with rfl | hv'
    · exact h.1
    · exact ih h.2 hv'

theorem noDupKeysEntries_mem {entries : List (CborVal × CborVal)}
    {k v : CborVal} (h : noDupKeysEntries entries = true)
    (hv : (k, v) ∈ entries) : noDupKeys v = true := by
  induction entries with
  | nil => cases hv
  | cons e rest ih =>
    obtain ⟨k0, v0⟩ := e
    rw [noDupKeysEntries, Bool.and_eq_true] at h
    rcases List.mem_cons.mp hv with heq | hv'
    · cases heq; exact h.1
    · exact ih h.2 hv'

/-- In a map with pairwise distinct keys, looking up the key of an
entry finds exactly that entry. -/
theorem find?_of_keysDistinct {entries : List (CborVal × CborVal)}
    {k v : CborVal} (hd : keysDistinct entries = true)
    (hv : (k, v) ∈ entries) :
    entries.find? (fun e => e.1 == k) = some (k, v) := by
  induction entries with
  | nil => cases hv
  | cons e rest ih =>
    obtain ⟨k0, v0⟩ := e
    rw [keysDistinct, Bool.and_eq_true, Bool.not_eq_true'] at hd
    rcases List.mem_cons.mp hv with heq | hv'
    · cases heq
      simp [List.find?_cons]
    · have hne : (k0 == k) = false := by
        by_contra hne
        rw [Bool.not_eq_false] at hne
        have : rest.any (fun e => e.1 == k0) = true :=
          List.any_eq_true.mpr ⟨(k, v), hv', by
            simpa using (CborVal.eq_of_beq _ _ hne).symm⟩
        rw [this] at hd
        exact absurd hd.1 (by simp)
      simp only [List.find?_cons, hne, cond_false]
      exact ih hd.2 hv'

theorem resolvePath_dict_child {root : CborVal} {p : Path}
    {entries : List (CborVal × CborVal)} {k v : CborVal}
    (hp : resolvePath root p = some (.dict entries))
    (hd : keysDistinct entries = true) (hv : (k, v) ∈ entries) :
    resolvePath root (p ++ [.key k]) = some v := by
  rw [resolvePath_append_one, hp]
  simp [resolveStep, find?_of_keysDistinct hd hv]

theorem noDupKeys_resolveStep {v v' : CborVal} {el : PathElem}
    (h : noDupKeys v = true) (hs : resolveStep v el = some v') :
    noDupKeys v' = true := by
  cases el with
  | index i =>
    cases v <;> simp [resolveStep] at hs
    rename_i items
    rw [noDupKeys] at h
    exact noDupKeysList_mem h (List.getElem?_mem hs)
  | key k =>
    cases v <;> simp [resolveStep] at hs
    rename_i entries
    rw [noDupKeys, Bool.and_eq_true] at h
    obtain ⟨a, ha⟩ := hs
    exact noDupKeysEntries_mem h.2 (List.mem_of_find?_eq_some ha)

theorem noDupKeys_resolvePath {root v : CborVal} {p : Path}
    (h : noDupKeys root = true) (hp : resolvePath root p = some v) :
    noDupKeys v = true := by
  induction p generalizing root with
  | nil =>
    simp [resolvePath] at hp
    exact hp ▸ h
  | cons el p' ih =>
    rw [resolvePath_cons] at hp
    cases hs : resolveStep root el with
    | none => rw [hs] at hp; simp at hp
    | some w =>
      rw [hs] at hp
      simp only [Option.some_bind] at hp
      exact ih (noDupKeys_resolveStep h hs) hp

/-- The key selector's scan (first entry whose key is
`value_equals`-equal to the literal) agrees with location resolution
(first entry with a structurally equal key), since `value_equals`
coincides with structural equality. -/
theorem findSome?_valueEquals_eq_find? (k : CborVal) :
    ∀ (entries : List (CborVal × CborVal)),
      entries.findSome?
          (fun e => if valueEquals e.1 k then some e.2 else none) =
        (entries.find? (fun e => e.1 == k)).map (fun e => e.2)
  | [] => by simp
  | (k0, v0) :: rest => by
    by_cases h : k0 = k
    · subst h
      simp [List.findSome?_cons, List.find?_cons, CborVal.valueEquals_refl,
        CborVal.beq_refl]
    · have h1 : valueEquals k0 k = false := by
        rw [← Bool.not_eq_true, CborVal.valueEquals_iff_eq]
        exact h
      have h2 : (k0 == k) = false := by
        rw [← Bool.not_eq_true, beq_iff_eq]
        exact h
      simp [List.findSome?_cons, List.find?_cons, h1, h2,
        findSome?_valueEquals_eq_find? k rest]

theorem keyReadSingle_eq_resolveStep (k v : CborVal) :
    keyReadSingle k v = resolveStep v (.key k) := by
  cases v <;> first
    | rfl
    | exact findSome?_valueEquals_eq_find? k _

/-- The correspondence between a `read`-side result and a
`get_paths`-side result: either both panicked, or both succeeded, the
locations are paired 1:1 with the read nodes, and every location
resolves to its paired node. -/
def ReadPathsAgree (root : CborVal) (ovs : Option (List CborVal))
    (ops : Option (List (CborVal × Path))) : Prop :=
  match ovs, ops with
  | some vs, some pairs =>
    pairs.map Prod.fst = vs ∧
      ∀ vp ∈ pairs, resolvePath root vp.2 = some vp.1
  | none, none => True
  | _, _ => False

theorem map_stepBy {α β : Type _} (f : α → β) (st : Nat) :
    ∀ (l : List α), (stepBy st l).map f = stepBy st (l.map f)
  | [] => by simp [stepBy]
  | x :: xs => by
    rw [stepBy, List.map_cons, List.map_cons, stepBy, map_stepBy f st (xs.drop (st - 1)),
      List.map_drop]
  termination_by l => l.length
  decreasing_by simp only [List.length_drop, List.length_cons]; omega

theorem mem_stepBy {α : Type _} {st : Nat} :
    ∀ {l : List α} {x : α}, x ∈ stepBy st l → x ∈ l
  | [], x, h => by simp [stepBy] at h
  | y :: xs, x, h => by
    rw [stepBy] at h
    rcases List.mem_cons.mp h with rfl | h'
    · exact List.mem_cons_self _ _
    · exact List.mem_cons_of_mem _ (List.mem_of_mem_drop (mem_stepBy h'))
  termination_by l x h => l.length
  decreasing_by simp only [List.length_drop, List.length_cons]; omega

/-- Key selector: pairing and resolution. -/
theorem keyGetPath_spec {root c : CborVal} {p : Path} (k : CborVal)
    (hp : resolvePath root p = some c) :
    (keyGetPath k c p).map Prod.fst = keyRead k c ∧
      ∀ vp ∈ keyGetPath k c p, resolvePath root vp.2 = some vp.1 := by
  rw [keyGetPath, keyRead]
  cases h : keyReadSingle k c with
  | none => simp
  | some v' =>
    refine ⟨by simp, ?_⟩
    intro vp hvp
    simp only [List.mem_singleton] at hvp
    subst hvp
    rw [resolvePath_append_one, hp, Option.some_bind,
      ← keyReadSingle_eq_resolveStep]
    exact h

/-- Wildcard selector: pairing and resolution (distinct keys needed for
the map case, since resolution retrieves the first entry with the
matched key). -/
theorem wildcardGetPaths_spec {root c : CborVal} {p : Path}
    (hnd : noDupKeys c = true) (hp : resolvePath root p = some c) :
    (wildcardGetPaths c p).map Prod.fst = wildcardRead c ∧
      ∀ vp ∈ wildcardGetPaths c p, resolvePath root vp.2 = some vp.1 := by
  cases c with
  | dict entries =>
    rw [noDupKeys, Bool.and_eq_true] at hnd
    refine ⟨by simp [wildcardGetPaths, wildcardRead], ?_⟩
    intro vp hvp
    simp only [wildcardGetPaths, List.mem_map] at hvp
    obtain ⟨e, he, rfl⟩ := hvp
    exact resolvePath_dict_child hp hnd.1 (by simpa using he)
  | array items =>
    refine ⟨?_, ?_⟩
    · simp only [wildcardGetPaths, wildcardRead, List.map_map]
      have hcomp :
          (Prod.fst ∘ fun e : Nat × CborVal =>
            (e.2, p ++ [PathElem.index e.1])) = Prod.snd := by
        funext e
        rfl
      rw [hcomp, List.enum_map_snd]
    intro vp hvp
    simp only [wildcardGetPaths, List.mem_map] at hvp
    obtain ⟨e, he, rfl⟩ := hvp
    obtain ⟨i, v⟩ := e
    exact resolvePath_array_child hp (List.mk_mem_enum_iff_getElem?.mp he)
  | pos n => exact ⟨rfl, by simp [wildcardGetPaths]⟩
  | neg n => exact ⟨rfl, by simp [wildcardGetPaths]⟩
  | bool b => exact ⟨rfl, by simp [wildcardGetPaths]⟩
  | simple n => exact ⟨rfl, by simp [wildcardGetPaths]⟩
  | bytes bs => exact ⟨rfl, by simp [wildcardGetPaths]⟩
  | str s => exact ⟨rfl, by simp [wildcardGetPaths]⟩
  | null => exact ⟨rfl, by simp [wildcardGetPaths]⟩

/-- Index selector: pairing and resolution. -/
theorem indexGetPaths_spec {root c : CborVal} {p : Path} (i : Int)
    (hp : resolvePath root p = some c) :
    (indexGetPaths i c p).map Prod.fst = indexRead i c ∧
      ∀ vp ∈ indexGetPaths i c p, resolvePath root vp.2 = some vp.1 := by
  cases c with
  | array items =>
    rw [indexGetPaths, indexRead, indexReadSingle]
    cases h : items[usizeOfInt (normalizeIndex i items.length)]? with
    | none => simp [h]
    | some v' =>
      simp only [h]
      refine ⟨by simp, ?_⟩
      intro vp hvp
      simp only [List.mem_singleton] at hvp
      subst hvp
      exact resolvePath_array_child hp h
  | pos n => exact ⟨rfl, by simp [indexGetPaths]⟩
  | neg n => exact ⟨rfl, by simp [indexGetPaths]⟩
  | bool b => exact ⟨rfl, by simp [indexGetPaths]⟩
  | simple n => exact ⟨rfl, by simp [indexGetPaths]⟩
  | bytes bs => exact ⟨rfl, by simp [indexGetPaths]⟩
  | str s => exact ⟨rfl, by simp [indexGetPaths]⟩
  | null => exact ⟨rfl, by simp [indexGetPaths]⟩
  | dict entries => exact ⟨rfl, by simp [indexGetPaths]⟩

theorem readPathsAgree_some {root : CborVal} {vs : List CborVal}
    {pairs : List (CborVal × Path)} (h1 : pairs.map Prod.fst = vs)
    (h2 : ∀ vp ∈ pairs, resolvePath root vp.2 = some vp.1) :
    ReadPathsAgree root (some vs) (some pairs) :=
  ⟨h1, h2⟩

theorem readPathsAgree_inv {root : CborVal} {o1 : Option (List CborVal)}
    {o2 : Option (List (CborVal × Path))} (h : ReadPathsAgree root o1 o2) :
    (o1 = none ∧ o2 = none) ∨
      ∃ vs pairs, o1 = some vs ∧ o2 = some pairs ∧
        pairs.map Prod.fst = vs ∧
        ∀ vp ∈ pairs, resolvePath root vp.2 = some vp.1 := by
  cases o1 with
  | none =>
    cases o2 with
    | none => exact Or.inl ⟨rfl, rfl⟩
    | some pairs => exact absurd h (by simp [ReadPathsAgree])
  | some vs =>
    cases o2 with
    | none => exact absurd h (by simp [ReadPathsAgree])
    | some pairs => exact Or.inr ⟨vs, pairs, rfl, rfl, h.1, h.2⟩

/-- Slice selector: pairing and resolution, for both branches (and the
common panic on `step = 0`). -/
theorem sliceGetPaths_spec {root c : CborVal} {p : Path} (a b s : Int)
    (hp : resolvePath root p = some c) :
    ReadPathsAgree root (sliceRead a b s c) (sliceGetPaths a b s c p) := by
  have hcomp : (Prod.fst ∘ fun ix : Nat × CborVal =>
      (ix.2, p ++ [PathElem.index ix.1])) = Prod.snd := by
    funext ix
    rfl
  cases c with
  | array items =>
    rw [sliceRead, sliceGetPaths]
    by_cases hpos : 0 < s
    · rw [if_pos hpos, if_pos hpos]
      refine readPathsAgree_some ?_ ?_
      · rw [List.map_map, hcomp, map_stepBy, List.map_take, List.map_drop,
          List.enum_map_snd]
      · intro vp hvp
        simp only [List.mem_map] at hvp
        obtain ⟨ix, hix, rfl⟩ := hvp
        have hm : ix ∈ items.enum :=
          List.mem_of_mem_drop (List.mem_of_mem_take (mem_stepBy hix))
        obtain ⟨i, v⟩ := ix
        exact resolvePath_array_child hp (List.mk_mem_enum_iff_getElem?.mp hm)
    · by_cases hz : s = 0
      · rw [if_neg hpos, if_neg hpos, if_pos hz, if_pos hz]
        trivial
      · rw [if_neg hpos, if_neg hpos, if_neg hz, if_neg hz]
        refine readPathsAgree_some ?_ ?_
        · rw [List.map_reverse, List.map_map, hcomp, map_stepBy,
            List.map_take, List.map_drop, List.enum_map_snd]
        · intro vp hvp
          rw [List.mem_reverse] at hvp
          simp only [List.mem_map] at hvp
          obtain ⟨ix, hix, rfl⟩ := hvp
          have hm : ix ∈ items.enum :=
            List.mem_of_mem_drop (List.mem_of_mem_take (mem_stepBy hix))
          obtain ⟨i, v⟩ := ix
          exact resolvePath_array_child hp (List.mk_mem_enum_iff_getElem?.mp hm)
  | pos n => exact readPathsAgree_some rfl (by simp)
  | neg n => exact readPathsAgree_some rfl (by simp)
  | bool b2 => exact readPathsAgree_some rfl (by simp)
  | simple n => exact readPathsAgree_some rfl (by simp)
  | bytes bs => exact readPathsAgree_some rfl (by simp)
  | str s2 => exact readPathsAgree_some rfl (by simp)
  | null => exact readPathsAgree_some rfl (by simp)
  | dict entries => exact readPathsAgree_some rfl (by simp)

/-- Filter selector over an array, generalized to a suffix of the
enumeration: pairing and resolution. -/
theorem filterGetPaths_array_gen {root : CborVal} {e : BooleanExpr} {p : Path}
    {items : List CborVal} (hp : resolvePath root p = some (.array items)) :
    ∀ (l : List (Nat × CborVal)),
      (∀ iv ∈ l, items[iv.1]? = some iv.2) →
      ReadPathsAgree root (filterArrayRead root e (l.map Prod.snd))
        (filterArrayGetPaths root e l p)
  | [], _ => by
    simp only [List.map_nil, filterArrayRead, filterArrayGetPaths]
    exact readPathsAgree_some rfl (by simp)
  | (i, v) :: rest, hmem => by
    have ih := filterGetPaths_array_gen (e := e) hp rest
      (fun iv hiv => hmem iv (List.mem_cons_of_mem _ hiv))
    simp only [List.map_cons, filterArrayRead, filterArrayGetPaths]
    cases hb : boolRead root e v with
    | none => simp [hb, ReadPathsAgree]
    | some b =>
      simp only [Option.bind_eq_bind, Option.some_bind]
      rcases readPathsAgree_inv ih with ⟨h1, h2⟩ | ⟨vs, pairs, h1, h2, hfst, hres⟩
      · rw [h1, h2]
        simp [ReadPathsAgree]
      · rw [h1, h2]
        simp only [Option.some_bind]
        refine readPathsAgree_some ?_ ?_
        · cases b <;> simp [hfst]
        · intro vp hvp
          cases b with
          | false => exact hres vp (by simpa using hvp)
          | true =>
            simp only [if_true] at hvp
            rcases List.mem_cons.mp hvp with rfl | hvp'
            · exact resolvePath_array_child hp
                (hmem (i, v) (List.mem_cons_self _ _))
            · exact hres vp hvp'

/-- Filter selector over a map: pairing and resolution (distinct keys
needed, as for the wildcard). -/
theorem filterGetPaths_dict_gen {root : CborVal} {e : BooleanExpr} {p : Path}
    {entries : List (CborVal × CborVal)}
    (hp : resolvePath root p = some (.dict entries))
    (hd : keysDistinct entries = true) :
    ∀ (l : List (CborVal × CborVal)),
      (∀ kv ∈ l, kv ∈ entries) →
      ReadPathsAgree root (filterDictRead root e l)
        (filterDictGetPaths root e l p)
  | [], _ => by
    simp only [filterDictRead, filterDictGetPaths]
    exact readPathsAgree_some rfl (by simp)
  | (k, v) :: rest, hmem => by
    have ih := filterGetPaths_dict_gen (e := e) hp hd rest
      (fun kv hkv => hmem kv (List.mem_cons_of_mem _ hkv))
    simp only [filterDictRead, filterDictGetPaths]
    cases hb : boolRead root e v with
    | none => simp [hb, ReadPathsAgree]
    | some b =>
      simp only [Option.bind_eq_bind, Option.some_bind]
      rcases readPathsAgree_inv ih with ⟨h1, h2⟩ | ⟨vs, pairs, h1, h2, hfst, hres⟩
      · rw [h1, h2]
        simp [ReadPathsAgree]
      · rw [h1, h2]
        simp only [Option.some_bind]
        refine readPathsAgree_some ?_ ?_
        · cases b <;> simp [hfst]
        · intro vp hvp
          cases b with
          | false => exact hres vp (by simpa using hvp)
          | true =>
            simp only [if_true] at hvp
            rcases List.mem_cons.mp hvp with rfl | hvp'
            · exact resolvePath_dict_child hp hd
                (hmem (k, v) (List.mem_cons_self _ _))
            · exact hres vp hvp'

mutual

theorem fetchWP_fst :
    ∀ (v : CborVal) (p : Path),
      (fetchDescendantsWithPaths v p).map Prod.fst = fetchDescendants v
  | .pos _, _ => rfl
  | .neg _, _ => rfl
  | .bool _, _ => rfl
  | .simple _, _ => rfl
  | .bytes _, _ => rfl
  | .str _, _ => rfl
  | .null, _ => rfl
  | .array items, p => by
    rw [fetchDescendantsWithPaths, fetchDescendants, List.map_append,
      List.map_map, fetchListWP_fst items 0 p]
    have hcomp : (Prod.fst ∘ fun e : Nat × CborVal =>
        (e.2, p ++ [PathElem.index e.1])) = Prod.snd := by
      funext e
      rfl
    rw [hcomp, List.enum_map_snd]
  | .dict entries, p => by
    rw [fetchDescendantsWithPaths, fetchDescendants, List.map_append,
      List.map_map, fetchEntriesWP_fst entries p]
    rfl

theorem fetchListWP_fst :
    ∀ (items : List CborVal) (i : Nat) (p : Path),
      (fetchDescListWithPaths items i p).map Prod.fst = fetchDescList items
  | [], _, _ => rfl
  | v :: rest, i, p => by
    rw [fetchDescListWithPaths, fetchDescList, List.map_append,
      fetchWP_fst v (p ++ [PathElem.index i]), fetchListWP_fst rest (i + 1) p]

theorem fetchEntriesWP_fst :
    ∀ (entries : List (CborVal × CborVal)) (p : Path),
      (fetchDescEntriesWithPaths entries p).map Prod.fst =
        fetchDescEntries entries
  | [], _ => rfl
  | (k, v) :: rest, p => by
    rw [fetchDescEntriesWithPaths, fetchDescEntries, List.map_append,
      fetchWP_fst v (p ++ [PathElem.key k]), fetchEntriesWP_fst rest p]

end

mutual

theorem fetchWP_ok :
    ∀ (root v : CborVal) (pv : Path), noDupKeys v = true →
      resolvePath root pv = some v →
      ∀ vp ∈ fetchDescendantsWithPaths v pv, resolvePath root vp.2 = some vp.1
  | _, .pos _, _, _, _ => by simp [fetchDescendantsWithPaths]
  | _, .neg _, _, _, _ => by simp [fetchDescendantsWithPaths]
  | _, .bool _, _, _, _ => by simp [fetchDescendantsWithPaths]
  | _, .simple _, _, _, _ => by simp [fetchDescendantsWithPaths]
  | _, .bytes _, _, _, _ => by simp [fetchDescendantsWithPaths]
  | _, .str _, _, _, _ => by simp [fetchDescendantsWithPaths]
  | _, .null, _, _, _ => by simp [fetchDescendantsWithPaths]
  | root, .array items, pv, hnd, hres => by
    intro vp hvp
    rw [fetchDescendantsWithPaths] at hvp
    rcases List.mem_append.mp hvp with hin | hin
    · simp only [List.mem_map] at hin
      obtain ⟨⟨i, w⟩, hiw, rfl⟩ := hin
      exact resolvePath_array_child hres (List.mk_mem_enum_iff_getElem?.mp hiw)
    · exact fetchListWP_ok root items pv (by rwa [noDupKeys] at hnd) hres
        items 0 (fun j w hj => by simpa using hj) vp hin
  | root, .dict entries, pv, hnd, hres => by
    intro vp hvp
    rw [noDupKeys, Bool.and_eq_true] at hnd
    rw [fetchDescendantsWithPaths] at hvp
    rcases List.mem_append.mp hvp with hin | hin
    · simp only [List.mem_map] at hin
      obtain ⟨⟨k, w⟩, hkw, rfl⟩ := hin
      exact resolvePath_dict_child hres hnd.1 hkw
    · exact fetchEntriesWP_ok root entries pv hnd.1 hnd.2 hres entries
        (fun kv h => h) vp hin
  termination_by root v pv hnd hres => (sizeOf v, 0)

theorem fetchListWP_ok :
    ∀ (root : CborVal) (items : List CborVal) (pv : Path),
      noDupKeysList items = true →
      resolvePath root pv = some (.array items) →
      ∀ (l : List CborVal) (i : Nat),
        (∀ (j : Nat) (w : CborVal), l[j]? = some w → items[i + j]? = some w) →
        ∀ vp ∈ fetchDescListWithPaths l i pv, resolvePath root vp.2 = some vp.1
  | root, items, pv, hnd, hres, [], i, hsub => by
    simp [fetchDescListWithPaths]
  | root, items, pv, hnd, hres, v :: rest, i, hsub => by
    intro vp hvp
    rw [fetchDescListWithPaths] at hvp
    have hiv : items[i]? = some v := by
      have := hsub 0 v (by simp)
      simpa using this
    rcases List.mem_append.mp hvp with hin | hin
    · exact fetchWP_ok root v (pv ++ [.index i])
        (noDupKeysList_mem hnd (List.getElem?_mem hiv))
        (resolvePath_array_child hres hiv) vp hin
    · exact fetchListWP_ok root items pv hnd hres rest (i + 1)
        (fun j w hj => by
          have := hsub (j + 1) w (by simpa using hj)
          rwa [show i + (j + 1) = i + 1 + j by omega] at this) vp hin
  termination_by root items pv hnd hres l i hsub => (sizeOf l, 1)

theorem fetchEntriesWP_ok :
    ∀ (root : CborVal) (entries : List (CborVal × CborVal)) (pv : Path),
      keysDistinct entries = true → noDupKeysEntries entries = true →
      resolvePath root pv = some (.dict entries) →
      ∀ (l : List (CborVal × CborVal)), (∀ kv ∈ l, kv ∈ entries) →
      ∀ vp ∈ fetchDescEntriesWithPaths l pv, resolvePath root vp.2 = some vp.1
  | root, entries, pv, hd, hnd, hres, [], hsub => by
    simp [fetchDescEntriesWithPaths]
  | root, entries, pv, hd, hnd, hres, (k, v) :: rest, hsub => by
    intro vp hvp
    rw [fetchDescEntriesWithPaths] at hvp
    have hkv : (k, v) ∈ entries := hsub (k, v) (List.mem_cons_self _ _)
    rcases List.mem_append.mp hvp with hin | hin
    · exact fetchWP_ok root v (pv ++ [.key k])
        (noDupKeysEntries_mem hnd hkv)
        (resolvePath_dict_child hres hd hkv) vp hin
    · exact fetchEntriesWP_ok root entries pv hd hnd hres rest
        (fun kv h => hsub kv (List.mem_cons_of_mem _ h)) vp hin
  termination_by root entries pv hd hnd hres l hsub => (sizeOf l, 1)

end

/-- The value projection of the descendant expansion with paths. -/
theorem descendantsOfWithPaths_fst (currents : List (CborVal × Path)) :
    (descendantsOfWithPaths currents).map Prod.fst =
      descendantsOf (currents.map Prod.fst) := by
  induction currents with
  | nil => rfl
  | cons vp rest ih =>
    simp only [descendantsOfWithPaths, descendantsOf, List.map_cons,
      List.flatMap_cons, List.map_append, List.map_cons] at *
    rw [fetchWP_fst vp.1 vp.2, ih]

/-- Every pair of the descendant expansion resolves to its node. -/
theorem descendantsOfWithPaths_ok {root : CborVal}
    {currents : List (CborVal × Path)} (hnd : noDupKeys root = true)
    (hcur : ∀ vp ∈ currents, resolvePath root vp.2 = some vp.1) :
    ∀ vp ∈ descendantsOfWithPaths currents,
      resolvePath root vp.2 = some vp.1 := by
  intro vp hvp
  rw [descendantsOfWithPaths] at hvp
  obtain ⟨cp, hcp, hin⟩ := List.exists_of_mem_flatMap hvp
  rcases List.mem_cons.mp hin with rfl | hin'
  · exact hcur vp hcp
  · exact fetchWP_ok root cp.1 cp.2
      (noDupKeys_resolvePath hnd (hcur cp hcp)) (hcur cp hcp) vp hin'

/-- `Selector::read` and `Selector::get_paths` agree: same panics,
locations paired 1:1 with the read nodes, and every location resolves
to its node. -/
theorem selGetPaths_spec (root : CborVal) (s : Selector) {c : CborVal}
    {p : Path} (hnd : noDupKeys root = true)
    (hp : resolvePath root p = some c) :
    ReadPathsAgree root (selRead root s c) (selGetPaths root s c p) := by
  have hc : noDupKeys c = true := noDupKeys_resolvePath hnd hp
  cases s with
  | key k =>
    simp only [selRead, selGetPaths]
    exact readPathsAgree_some (keyGetPath_spec k hp).1 (keyGetPath_spec k hp).2
  | wildcard =>
    simp only [selRead, selGetPaths]
    exact readPathsAgree_some (wildcardGetPaths_spec hc hp).1
      (wildcardGetPaths_spec hc hp).2
  | index i =>
    simp only [selRead, selGetPaths]
    exact readPathsAgree_some (indexGetPaths_spec i hp).1
      (indexGetPaths_spec i hp).2
  | slice a b st =>
    simp only [selRead, selGetPaths]
    exact sliceGetPaths_spec a b st hp
  | filter e =>
    cases c with
    | array items =>
      simp only [selRead, selGetPaths]
      have h := filterGetPaths_array_gen (e := e) hp items.enum
        (fun iv hiv => List.mk_mem_enum_iff_getElem?.mp (by
          obtain ⟨i, v⟩ := iv
          exact hiv))
      rwa [List.enum_map_snd] at h
    | dict entries =>
      simp only [selRead, selGetPaths]
      rw [noDupKeys, Bool.and_eq_true] at hc
      exact filterGetPaths_dict_gen (e := e) hp hc.1 entries (fun kv h => h)
    | pos n =>
      simp only [selRead, selGetPaths]
      exact readPathsAgree_some rfl (by simp)
    | neg n =>
      simp only [selRead, selGetPaths]
      exact readPathsAgree_some rfl (by simp)
    | bool b =>
      simp only [selRead, selGetPaths]
      exact readPathsAgree_some rfl (by simp)
    | simple n =>
      simp only [selRead, selGetPaths]
      exact readPathsAgree_some rfl (by simp)
    | bytes bs =>
      simp only [selRead, selGetPaths]
      exact readPathsAgree_some rfl (by simp)
    | str s2 =>
      simp only [selRead, selGetPaths]
      exact readPathsAgree_some rfl (by simp)
    | null =>
      simp only [selRead, selGetPaths]
      exact readPathsAgree_some rfl (by simp)

/-- The selector loop of a child segment preserves the agreement. -/
theorem selsGetPathsFlat_spec (root : CborVal) (selectors : List Selector)
    {c : CborVal} {p : Path} (hnd : noDupKeys root = true)
    (hp : resolvePath root p = some c) :
    ReadPathsAgree root (selsReadFlat root selectors c)
      (selsGetPathsFlat root selectors c p) := by
  induction selectors with
  | nil =>
    simp only [selsReadFlat, selsGetPathsFlat]
    exact readPathsAgree_some rfl (by simp)
  | cons s rest ih =>
    simp only [selsReadFlat, selsGetPathsFlat]
    rcases readPathsAgree_inv (selGetPaths_spec root s hnd hp) with
      ⟨h1, h2⟩ | ⟨vs, pairs, h1, h2, hfst, hres⟩
    · rw [h1, h2]
      simp [ReadPathsAgree]
    · rw [h1, h2]
      simp only [Option.bind_eq_bind, Option.some_bind]
      rcases readPathsAgree_inv ih with
        ⟨h3, h4⟩ | ⟨vs2, pairs2, h3, h4, hfst2, hres2⟩
      · rw [h3, h4]
        simp [ReadPathsAgree]
      · rw [h3, h4]
        simp only [Option.some_bind]
        refine readPathsAgree_some ?_ ?_
        · rw [List.map_append, hfst, hfst2]
        · intro vp hvp
          rcases List.mem_append.mp hvp with h | h
          · exact hres vp h
          · exact hres2 vp h

/-- The current-node loop of a child segment preserves the
agreement. -/
theorem childGetPathsAll_spec (root : CborVal) (selectors : List Selector)
    (currents : List (CborVal × Path)) (hnd : noDupKeys root = true)
    (hcur : ∀ vp ∈ currents, resolvePath root vp.2 = some vp.1) :
    ReadPathsAgree root (childReadAll root selectors (currents.map Prod.fst))
      (childGetPathsAll root selectors currents) := by
  induction currents with
  | nil =>
    simp only [List.map_nil, childReadAll, childGetPathsAll]
    exact readPathsAgree_some rfl (by simp)
  | cons cp rest ih =>
    simp only [List.map_cons, childReadAll, childGetPathsAll]
    have hsp := selsGetPathsFlat_spec root selectors hnd
      (hcur cp (List.mem_cons_self _ _))
    rcases readPathsAgree_inv hsp with
      ⟨h1, h2⟩ | ⟨vs, pairs, h1, h2, hfst, hres⟩
    · rw [h1, h2]
      simp [ReadPathsAgree]
    · rw [h1, h2]
      simp only [Option.bind_eq_bind, Option.some_bind]
      rcases readPathsAgree_inv
          (ih (fun vp hvp => hcur vp (List.mem_cons_of_mem _ hvp))) with
        ⟨h3, h4⟩ | ⟨vs2, pairs2, h3, h4, hfst2, hres2⟩
      · rw [h3, h4]
        simp [ReadPathsAgree]
      · rw [h3, h4]
        simp only [Option.some_bind]
        refine readPathsAgree_some ?_ ?_
        · rw [List.map_append, hfst, hfst2]
        · intro vp hvp
          rcases List.mem_append.mp hvp with h | h
          · exact hres vp h
          · exact hres2 vp h

/-- `Segment::read` and `Segment::get_paths` agree. -/
theorem segGetPaths_spec (root : CborVal) (seg : Segment)
    (currents : List (CborVal × Path)) (hnd : noDupKeys root = true)
    (hcur : ∀ vp ∈ currents, resolvePath root vp.2 = some vp.1) :
    ReadPathsAgree root (segRead root seg (currents.map Prod.fst))
      (segGetPaths root seg currents) := by
  cases seg with
  | child selectors =>
    simp only [segRead, segGetPaths]
    exact childGetPathsAll_spec root selectors currents hnd hcur
  | descendant selectors =>
    simp only [segRead, segGetPaths]
    have h := childGetPathsAll_spec root selectors
      (descendantsOfWithPaths currents) hnd
      (descendantsOfWithPaths_ok hnd hcur)
    rwa [descendantsOfWithPaths_fst] at h

/-- The segment fold of `read` and `get_paths` agree. -/
theorem segmentsGetPathsAll_spec (root : CborVal) (segments : List Segment)
    (currents : List (CborVal × Path)) (hnd : noDupKeys root = true)
    (hcur : ∀ vp ∈ currents, resolvePath root vp.2 = some vp.1) :
    ReadPathsAgree root
      (segmentsReadAll root segments (currents.map Prod.fst))
      (segmentsGetPathsAll root segments currents) := by
  induction segments generalizing currents with
  | nil =>
    simp only [segmentsReadAll, segmentsGetPathsAll]
    exact readPathsAgree_some rfl hcur
  | cons s rest ih =>
    simp only [segmentsReadAll, segmentsGetPathsAll]
    rcases readPathsAgree_inv (segGetPaths_spec root s currents hnd hcur) with
      ⟨h1, h2⟩ | ⟨vs, pairs, h1, h2, hfst, hres⟩
    · rw [h1, h2]
      simp [ReadPathsAgree]
    · rw [h1, h2]
      simp only [Option.bind_eq_bind, Option.some_bind]
      have := ih pairs hres
      rwa [hfst] at this

/-- **C1** (amended).  For every compiled path AST with at least one
segment, every document whose maps are free of duplicate keys, and
every completed evaluation (no slice panic), the node list returned by
`read` and the location list returned by `get_paths` have the same
length, and for every index `i`, resolving the `i`-th location against
the document reaches exactly the `i`-th node of the `read` result (so
in particular a structurally equal node, since `value_equals` coincides
with structural identity).  For the zero-segment AST the property
fails: `read` returns the root while `get_paths` returns no
location. -/
theorem claim_C1_pairing (segments : List Segment) (doc : CborVal)
    (hne : segments ≠ []) (hnd : noDupKeys doc = true)
    {vs : List CborVal} {ps : List Path}
    (hr : cborPathRead segments doc = some vs)
    (hp : cborPathGetPaths segments doc = some ps) :
    vs.length = ps.length ∧
      ∀ (i : Nat) (h1 : i < vs.length) (h2 : i < ps.length),
        resolvePath doc ps[i] = some vs[i] := by
  cases segments with
  | nil => exact absurd rfl hne
  | cons s rest =>
    rw [cborPathGetPaths] at hp
    rw [Option.map_eq_some'] at hp
    obtain ⟨pairs, hpairs, rfl⟩ := hp
    rw [cborPathGetPathPairs] at hpairs
    rw [cborPathRead, absolutePathReadAux] at hr
    have h0 : ∀ vp ∈ [((doc : CborVal), ([] : Path))],
        resolvePath doc vp.2 = some vp.1 := by
      simp [resolvePath]
    have hseg := segGetPaths_spec doc s [(doc, [])] hnd h0
    simp only [List.map_cons, List.map_nil] at hseg
    rcases readPathsAgree_inv hseg with
      ⟨h1, h2⟩ | ⟨fvs, fpairs, h1, h2, hfst, hres⟩
    · rw [h1] at hr
      simp at hr
    · rw [h1] at hr
      rw [h2] at hpairs
      simp only [Option.bind_eq_bind, Option.some_bind] at hr hpairs
      have hfold := segmentsGetPathsAll_spec doc rest fpairs hnd hres
      rw [hfst] at hfold
      rcases readPathsAgree_inv hfold with
        ⟨h3, h4⟩ | ⟨vs2, pairs2, h3, h4, hfst2, hres2⟩
      · rw [h3] at hr
        simp at hr
      · rw [h3] at hr
        rw [h4] at hpairs
        cases hr
        cases hpairs
        subst hfst2
        constructor
        · simp
        · intro i hi1 hi2
          simp only [List.getElem_map]
          exact hres2 _ (List.getElem_mem _)

/-- Witness for **C1**: the one-segment path `$["a"]` on the document
`{"a": 1}` — one node, one location, and the location resolves to the
node. -/
theorem claim_C1_witness :
    ([CborVal.pos 1].length = [[PathElem.key (CborVal.str "a")]].length ∧
      ∀ (i : Nat) (h1 : i < [CborVal.pos 1].length)
        (h2 : i < [[PathElem.key (CborVal.str "a")]].length),
        resolvePath (.dict [(.str "a", .pos 1)])
          [[PathElem.key (CborVal.str "a")]][i] =
          some [CborVal.pos 1][i]) := by
  refine claim_C1_pairing [.child [.key (.str "a")]]
    (.dict [(.str "a", .pos 1)]) (by simp) ?_ ?_ ?_
  · simp [noDupKeys, keysDistinct, noDupKeysEntries]
  · simp [cborPathRead, absolutePathReadAux, segRead, childReadAll,
      selsReadFlat, selRead, keyRead, keyReadSingle, segmentsReadAll,
      CborVal.valueEquals_refl]
  · simp [cborPathGetPaths, cborPathGetPathPairs, segGetPaths,
      childGetPathsAll, selsGetPathsFlat, selGetPaths, keyGetPath,
      keyReadSingle, segmentsGetPathsAll, CborVal.valueEquals_refl]

/-! ## Small facts about the comparison matrices -/

theorem lesserKinds_none_left (o : Option CborVal) :
    lesserKinds none o = false := by
  cases o with
  | none => rfl
  | some v => cases v <;> rfl

theorem lesserKinds_none_right (o : Option CborVal) :
    lesserKinds o none = false := by
  cases o with
  | none => rfl
  | some v => cases v <;> rfl

/-! ## Arithmetic facts about the machine-integer model -/

theorem iwrap_eq_self {x : Int} (h1 : -ISIZE ≤ x) (h2 : x < ISIZE) :
    iwrap x = x := by
  have e1 : ISIZE = (2 ^ 63 : Int) := rfl
  have e2 : USIZE = (2 ^ 64 : Int) := rfl
  rw [e1] at h1 h2
  rw [iwrap, e1, e2]
  omega

theorem usizeOfInt_of_nonneg {x : Int} (h1 : 0 ≤ x) (h2 : x < 2 ^ 64) :
    usizeOfInt x = x.toNat := by
  have e2 : USIZE = (2 ^ 64 : Int) := rfl
  rw [usizeOfInt, e2]
  omega

theorem usub_of_le {a b : Nat} (h : b ≤ a) (ha : a < 2 ^ 64) :
    usub a b = a - b := by
  have e2 : USIZE = (2 ^ 64 : Int) := rfl
  rw [usub, e2]
  omega

theorem usub_wrap_ge {a b : Nat} (h : a < b) (hb : b ≤ 2 ^ 64) :
    2 ^ 64 - (b - a) ≤ usub a b := by
  have e2 : USIZE = (2 ^ 64 : Int) := rfl
  rw [usub, e2]
  omega

/-! ## The `step_by`/`skip`/`take` characterization used by the slice
selector -/

theorem stepBy_getElem? {α : Type _} (st : Nat) (hst : 0 < st) :
    ∀ (l : List α) (k : Nat), (stepBy st l)[k]? = l[k * st]?
  | [], k => by simp [stepBy]
  | x :: xs, 0 => by simp [stepBy]
  | x :: xs, k + 1 => by
    rw [stepBy]
    have ih := stepBy_getElem? st hst (xs.drop (st - 1)) k
    have hm : (k + 1) * st = (st - 1 + k * st) + 1 := by
      rw [Nat.succ_mul]; omega
    rw [hm, List.getElem?_cons_succ, ih, List.getElem?_drop,
      List.getElem?_cons_succ]

/-- The core characterization of both branches of the slice selector:
`skip(s).take(end - start).step_by(st)` (with wrapping subtraction)
yields exactly the elements at positions `s, s + st, s + 2·st, …`
strictly below `e` — or, when `e < s` so that the subtraction wraps,
strictly below the array length. -/
theorem stepBy_drop_take_usub_getElem? {α : Type _} (items : List α)
    (s e st : Nat) (hst : 0 < st) (hs : s ≤ items.length)
    (he : e ≤ items.length) (hlen : 2 * items.length ≤ 2 ^ 64) (k : Nat) :
    (stepBy st ((items.drop s).take (usub e s)))[k]? =
      (if s + k * st < (if s ≤ e then e else items.length)
        then items[s + k * st]? else none) := by
  rw [stepBy_getElem? st hst, List.getElem?_take]
  by_cases hse : s ≤ e
  · rw [usub_of_le hse (by omega)]
    simp only [hse, if_true]
    by_cases hk : k * st < e - s
    · rw [if_pos hk, if_pos (by omega), List.getElem?_drop]
    · rw [if_neg hk, if_neg (by omega)]
  · push_neg at hse
    have hw : (2 : Nat) ^ 64 - (s - e) ≤ usub e s :=
      usub_wrap_ge hse (by omega)
    simp only [if_neg (by omega : ¬ s ≤ e)]
    by_cases hk : k * st < usub e s
    · rw [if_pos hk, List.getElem?_drop]
      by_cases hin : s + k * st < items.length
      · rw [if_pos hin]
      · rw [if_neg hin, List.getElem?_eq_none_iff.mpr (by omega)]
    · rw [if_neg hk, if_neg (by omega)]

theorem natAbs_tmod_le (a b : Int) : (Int.tmod a b).natAbs ≤ a.natAbs := by
  cases a with
  | ofNat m =>
    cases b with
    | ofNat n => simpa [Int.tmod] using Nat.mod_le m n
    | negSucc n => simpa [Int.tmod] using Nat.mod_le m n.succ
  | negSucc m =>
    cases b with
    | ofNat n => simpa [Int.tmod] using Nat.mod_le m.succ n
    | negSucc n => simpa [Int.tmod] using Nat.mod_le m.succ n.succ

/-- Under realistic bounds, `normalize_index` is plain integer
arithmetic: keep a non-negative offset, shift a negative one by the
length. -/
theorem normalizeIndex_eq {i : Int} {len : Nat} (hi : i.natAbs ≤ 2 ^ 60)
    (hlen : len ≤ 2 ^ 60) :
    normalizeIndex i len = if 0 ≤ i then i else (len : Int) + i := by
  rw [normalizeIndex]
  by_cases h : 0 ≤ i
  · simp [h]
  · have hinner : iwrap (len : Int) = len :=
      iwrap_eq_self (by simp only [ISIZE]; omega) (by simp only [ISIZE]; omega)
    rw [if_neg h, if_neg h, hinner,
      iwrap_eq_self (by simp only [ISIZE]; omega) (by simp only [ISIZE]; omega)]

theorem normalizeIndex_natAbs_le {i : Int} {len : Nat}
    (hi : i.natAbs ≤ 2 ^ 60) (hlen : len ≤ 2 ^ 60) :
    (normalizeIndex i len).natAbs ≤ 2 ^ 61 := by
  rw [normalizeIndex_eq hi hlen]
  split <;> omega

/-! ## Claim C5: structural equality of values -/

/-- **C5** (counterexample).  Two maps with the same two entries listed
in opposite orders: the first map's cardinality equals the second's and
every key of the first map occurs in the second with a structurally
equal associated value (the claimed characterization of equality), yet
`value_equals` returns `false` — after the first key is found at the
second position, the second map's iterator is exhausted, so the lookup
of the second key fails.  Map equality therefore depends on entry
order, contradicting the claim. -/
theorem claim_C5_counterexample :
    valueEquals (.dict [(.pos 0, .pos 0), (.pos 1, .pos 1)])
        (.dict [(.pos 1, .pos 1), (.pos 0, .pos 0)]) = false ∧
    (∀ kv ∈ ([(.pos 0, .pos 0), (.pos 1, .pos 1)] : List (CborVal × CborVal)),
      ∃ kv2 ∈ ([(.pos 1, .pos 1), (.pos 0, .pos 0)] : List (CborVal × CborVal)),
        kv.1 = kv2.1 ∧ valueEquals kv.2 kv2.2 = true) := by decide

/-- **C5** (amended).  `value_equals` holds exactly when the two values
are structurally identical: same-kind scalars equal by value, arrays of
the same length with pairwise equal elements in order, and maps of the
same cardinality whose entries carry the same keys *in the same order*
with pairwise equal values — the sequential consumption of the second
map's iterator forces each key of the first map to be matched at the
head of what remains of the second, so equality of maps does depend on
the order in which the two maps list their entries. -/
theorem claim_C5_value_equals_iff_structural_eq (v1 v2 : CborVal) :
    valueEquals v1 v2 = true ↔ v1 = v2 :=
  CborVal.valueEquals_iff_eq v1 v2

/-! ## Claim C6: Comparable resolution and the absent/present matrix -/

/-- **C6**.  `Comparable::equals` and `Comparable::lesser_than` first
resolve each operand to at most one node (`compRead`; `none` inside
`some` is "absent": a singular path that selects nothing or a function
that yields no value).  Given the two resolution outcomes, `equals`
returns `true` on two absents, `false` when exactly one operand is
absent, and the structural equality of the two resolved nodes
otherwise; `lesser_than` is `false` whenever either operand is
absent. -/
theorem claim_C6_comparable_resolution (root cur : CborVal)
    (c1 c2 : Comparable) (o1 o2 : Option CborVal)
    (h1 : compRead root cur c1 = some o1)
    (h2 : compRead root cur c2 = some o2) :
    compEquals root cur c1 c2 =
      some (match o1, o2 with
        | none, none => true
        | some v1, some v2 => valueEquals v1 v2
        | _, _ => false) ∧
    ((o1 = none ∨ o2 = none) → compLesser root cur c1 c2 = some false) := by
  constructor
  · simp only [compEquals, h1, h2, Option.bind_eq_bind, Option.some_bind,
      Option.some.injEq]
    cases o1 <;> cases o2 <;> rfl
  · intro h
    simp only [compLesser, h1, h2, Option.bind_eq_bind, Option.some_bind,
      Option.some.injEq]
    rcases h with h | h
    · rw [h, lesserKinds_none_left]
    · rw [h, lesserKinds_none_right]

/-- Witness for **C6**: a literal value compared with a relative
singular path that selects nothing in a scalar current node. -/
theorem claim_C6_witness :
    compEquals (.dict []) (.pos 0) (.value (.pos 1))
      (.singularPath (.rel [.key (.str "x")])) = some false ∧
    compLesser (.dict []) (.pos 0) (.value (.pos 1))
      (.singularPath (.rel [.key (.str "x")])) = some false := by
  have h1 : compRead (.dict []) (.pos 0) (.value (.pos 1)) =
      some (some (.pos 1)) := by
    simp [compRead]
  have h2 : compRead (.dict []) (.pos 0)
      (.singularPath (.rel [.key (.str "x")])) = some none := by
    simp [compRead, singularPathRead, singularSegmentsRead,
      singularSegmentRead, keyReadSingle]
  have h := claim_C6_comparable_resolution _ _ _ _ _ _ h1 h2
  exact ⟨by simpa using h.1, by simpa using h.2 (Or.inr rfl)⟩

/-! ## Claim C7: the empty path -/

/-- **C7** (counterexample).  On the document `0`, a compiled path with
an empty segment list does *not* yield one location pairing the root
with the empty location: `get_paths` returns the empty list (the source
returns `Vec::new()` when there is no first segment), even though
`read` returns the one-element list containing the root. -/
theorem claim_C7_counterexample :
    ¬ (cborPathGetPaths [] (.pos 0) = some [([] : Path)]) := by decide

/-- **C7** (amended).  For every document, a compiled path with an
empty segment list selects the root for `read` — the one-element list
containing the root — but `get_paths` returns the *empty* location
list, not a single empty location. -/
theorem claim_C7_empty_path (doc : CborVal) :
    cborPathRead [] doc = some [doc] ∧ cborPathGetPaths [] doc = some [] :=
  ⟨by simp [cborPathRead, absolutePathReadAux], rfl⟩

/-- **C4** (amended).  For `step < 0` on an array, with
`actual_start = min(usize(end + 1 + (start tmod -step) − ((end+1) tmod
step)), len)` and `actual_end = min(usize(start + 1), len)` computed
from the normalized offsets, the selector takes elements at stride
`-step` starting at `actual_start`, strictly below `actual_end` when
`actual_start <= actual_end` — but strictly below `len` when
`actual_end < actual_start`, because the `take` count underflows and
wraps — and returns the collected subsequence reversed, so results are
in descending original-index order. -/
theorem claim_C4_negative_slice (start endI step : Int) (items : List CborVal)
    (s e E : Int) (as ae bound st : Nat)
    (hstep : step < 0) (hstepb : -(2 ^ 63) < step)
    (hstart : start.natAbs ≤ 2 ^ 60) (hendI : endI.natAbs ≤ 2 ^ 60)
    (hlen : items.length ≤ 2 ^ 60)
    (hs : s = normalizeIndex start items.length)
    (he : e = normalizeIndex endI items.length)
    (hE : E = e + 1 + Int.tmod s (-step) - Int.tmod (e + 1) step)
    (has : as = min (usizeOfInt E) items.length)
    (hae : ae = min (usizeOfInt (s + 1)) items.length)
    (hbound : bound = if as ≤ ae then ae else items.length)
    (hst : st = (-step).toNat) :
    ∃ r : List CborVal, sliceRead start endI step (.array items) = some r.reverse ∧
      ∀ k : Nat, r[k]? =
        if as + k * st < bound then items[as + k * st]? else none := by
  have hsabs : s.natAbs ≤ 2 ^ 61 := hs ▸ normalizeIndex_natAbs_le hstart hlen
  have heabs : e.natAbs ≤ 2 ^ 61 := he ▸ normalizeIndex_natAbs_le hendI hlen
  have htm1 : (Int.tmod s (-step)).natAbs ≤ 2 ^ 61 :=
    le_trans (natAbs_tmod_le _ _) hsabs
  have htm2 : (Int.tmod (e + 1) step).natAbs ≤ 2 ^ 61 + 1 :=
    le_trans (natAbs_tmod_le _ _) (by omega)
  have hneg : iwrap (-step) = -step :=
    iwrap_eq_self (by simp only [ISIZE]; omega) (by simp only [ISIZE]; omega)
  have he1 : iwrap (e + 1) = e + 1 :=
    iwrap_eq_self (by simp only [ISIZE]; omega) (by simp only [ISIZE]; omega)
  have hEw : iwrap E = E :=
    iwrap_eq_self (by simp only [ISIZE]; omega) (by simp only [ISIZE]; omega)
  have hs1 : iwrap (s + 1) = s + 1 :=
    iwrap_eq_self (by simp only [ISIZE]; omega) (by simp only [ISIZE]; omega)
  have hstep' : usizeOfInt (-step) = st := by
    rw [hst]
    exact usizeOfInt_of_nonneg (by omega) (by omega)
  have hstpos : 0 < st := by omega
  refine ⟨stepBy st ((items.drop as).take (usub ae as)), ?_, ?_⟩
  · simp only [sliceRead, if_neg (by omega : ¬ (0 : Int) < step),
      if_neg (by omega : ¬ step = 0), ← hs, ← he, hneg, he1, ← hE, hEw,
      hs1, ← has, ← hae, hstep']
  · intro k
    rw [hbound]
    exact stepBy_drop_take_usub_getElem? items as ae st hstpos
      (by omega) (by omega) (by omega) k

/-- Witness for **C4**: the claim's own concrete example,
`slice(6, -8, -1)` over the seven-element array `["a".."g"]` — the
normalized window is `[0, 7)` at stride 1, reversed, so the selector
yields `["g","f","e","d","c","b","a"]`. -/
theorem claim_C4_witness :
    (∃ r : List CborVal, sliceRead 6 (-8) (-1)
        (.array [.str "a", .str "b", .str "c", .str "d", .str "e", .str "f",
          .str "g"]) = some r.reverse ∧
      ∀ k : Nat, r[k]? =
        if 0 + k * 1 < 7
          then [CborVal.str "a", .str "b", .str "c", .str "d", .str "e",
            .str "f", .str "g"][0 + k * 1]?
          else none) ∧
    sliceRead 6 (-8) (-1)
      (.array [.str "a", .str "b", .str "c", .str "d", .str "e", .str "f",
        .str "g"]) =
      some [.str "g", .str "f", .str "e", .str "d", .str "c", .str "b",
        .str "a"] := by
  constructor
  · exact claim_C4_negative_slice 6 (-8) (-1)
      [.str "a", .str "b", .str "c", .str "d", .str "e", .str "f", .str "g"]
      6 (-1) 0 0 7 7 1
      (by decide) (by decide) (by decide) (by decide) (by decide)
      (by decide) (by decide) (by decide) (by decide) (by decide)
      (by decide) (by decide)
  · simp [sliceRead, normalizeIndex, usizeOfInt, usub, iwrap, USIZE, ISIZE,
      stepBy]

/-! ## Counterexamples to the universal claims C1-C4 -/

/-- **C1** (counterexample).  For the empty segment list (a valid
compiled path, `["$"]`) on the document `0`, `read` returns one node
but `get_paths` returns zero locations, so the claimed length equality
fails. -/
theorem claim_C1_counterexample :
    (cborPathRead [] (.pos 0)).map List.length = some 1 ∧
    (cborPathGetPaths [] (.pos 0)).map List.length = some 0 := by
  refine ⟨?_, by decide⟩
  simp [cborPathRead, absolutePathReadAux]

/-- **C2** (counterexample).  A slice selector with `step = 0` applied
to a one-element array evaluates `start % -step`, a remainder by zero,
which panics in Rust (modelled by `none`): `read` does not terminate
normally on every structurally valid AST. -/
theorem claim_C2_counterexample :
    cborPathRead [.child [.slice 0 1 0]] (.array [.pos 1]) = none ∧
    cborPathGetPaths [.child [.slice 0 1 0]] (.array [.pos 1]) = none := by
  constructor
  · simp [cborPathRead, absolutePathReadAux, segRead, childReadAll,
      selsReadFlat, selRead, sliceRead]
  · simp [cborPathGetPaths, cborPathGetPathPairs, segGetPaths,
      childGetPathsAll, selsGetPathsFlat, selGetPaths, sliceGetPaths]

/-- **C3** (counterexample).  `slice(5, 2, 1)` over the six-element
array `["a".."f"]`: the clamped bounds are `start' = 5`, `end' = 2`,
so the claim demands the empty result (`end' <= start'`); but
`take(end - start)` underflows and wraps in a release build, so the
selector returns the element at index 5 (`"f"`). -/
theorem claim_C3_counterexample :
    sliceRead 5 2 1
      (.array [.str "a", .str "b", .str "c", .str "d", .str "e", .str "f"]) =
      some [.str "f"] := by
  simp [sliceRead, normalizeIndex, usizeOfInt, usub, iwrap, USIZE, ISIZE, stepBy]

/-- **C2** (amended).  For every structurally valid compiled path AST
in which every slice selector has `step ≠ 0`, and every document, both
`read` and `get_paths` terminate normally (no panic, no error): the
result is always `some` sequence, and absence of matches is an empty
sequence rather than an error.  (With a `step = 0` slice the evaluation
panics on a remainder by zero — see the counterexample.) -/
theorem claim_C2_totality (segments : List Segment) (doc : CborVal)
    (h : segsNoZeroStep segments = true) :
    (cborPathRead segments doc).isSome ∧
      (cborPathGetPaths segments doc).isSome := by
  refine ⟨absolutePathReadAux_isSome doc segments h, ?_⟩
  rw [cborPathGetPaths, Option.isSome_map']
  exact cborPathGetPathPairs_isSome segments doc h

/-- Witness for **C2**: a child segment holding a `slice(0,2,1)`
selector, applied to a scalar document — evaluation completes, and the
no-match case is the empty sequence. -/
theorem claim_C2_witness :
    (cborPathRead [.child [.slice 0 2 1]] (.pos 7)).isSome ∧
    (cborPathGetPaths [.child [.slice 0 2 1]] (.pos 7)).isSome ∧
    cborPathRead [.child [.slice 0 2 1]] (.pos 7) = some [] := by
  have h : segsNoZeroStep [.child [.slice 0 2 1]] = true := by
    simp [segsNoZeroStep, segNoZeroStep, selsNoZeroStep, selNoZeroStep]
  have h2 := claim_C2_totality [.child [.slice 0 2 1]] (.pos 7) h
  refine ⟨h2.1, h2.2, ?_⟩
  simp [cborPathRead, absolutePathReadAux, segRead, childReadAll,
    selsReadFlat, selRead, sliceRead, segmentsReadAll]

/-- **C3** (amended).  For `step > 0` on an array, the slice selector
returns exactly the elements at positions `start', start' + step,
start' + 2·step, …` strictly below a bound, where `start'` and `end'`
are the `usize` casts of the normalized offsets clamped from above to
`len` (so a normalized offset that is still negative casts to a huge
unsigned value and clamps to `len`, making the result empty — in
particular the result is empty when the normalized start is negative);
the bound is `end'` when `start' <= end'`, but when `end' < start'` the
`take(end - start)` count underflows and wraps, so the bound becomes
`len` and the selector returns the tail elements from `start'` on
instead of the empty list. -/
theorem claim_C3_forward_slice (start endI step : Int) (items : List CborVal)
    (s' e' bound : Nat)
    (hstep : 0 < step) (hstepb : step < 2 ^ 63)
    (hlen : 2 * items.length ≤ 2 ^ 64)
    (hs : s' = min (usizeOfInt (normalizeIndex start items.length)) items.length)
    (he : e' = min (usizeOfInt (normalizeIndex endI items.length)) items.length)
    (hb : bound = if s' ≤ e' then e' else items.length) :
    ∃ r, sliceRead start endI step (.array items) = some r ∧
      ∀ k : Nat, r[k]? =
        if s' + k * step.toNat < bound then items[s' + k * step.toNat]? else none := by
  have hst : usizeOfInt step = step.toNat :=
    usizeOfInt_of_nonneg (le_of_lt hstep) (by omega)
  refine ⟨stepBy (usizeOfInt step)
    ((items.drop s').take (usub e' s')), ?_, ?_⟩
  · simp only [sliceRead, if_pos hstep, hs, he]
  · intro k
    rw [hst, hb]
    exact stepBy_drop_take_usub_getElem? items s' e' step.toNat
      (by omega) (by omega) (by omega) hlen k

/-- Witness for **C3**: `slice(1, 5, 2)` over the array `[0,…,5]`
selects the elements at positions 1 and 3. -/
theorem claim_C3_witness :
    ∃ r, sliceRead 1 5 2
        (.array [.pos 0, .pos 1, .pos 2, .pos 3, .pos 4, .pos 5]) = some r ∧
      ∀ k : Nat, r[k]? =
        if 1 + k * (2 : Int).toNat < 5
          then [CborVal.pos 0, .pos 1, .pos 2, .pos 3, .pos 4, .pos 5][1 + k * (2 : Int).toNat]?
          else none :=
  claim_C3_forward_slice 1 5 2 _ 1 5 5 (by decide) (by decide) (by decide)
    (by decide) (by decide) (by decide)

/-- **C4** (counterexample).  `slice(2, 4, -1)` over the six-element
array `["a".."f"]`: `actual_start = 5`, `actual_end = 3`, so the
claimed window `[actual_start, actual_end)` is empty; but
`take(actual_end - actual_start)` underflows and wraps in a release
build, so the selector returns the element at index 5 (`"f"`). -/
theorem claim_C4_counterexample :
    sliceRead 2 4 (-1)
      (.array [.str "a", .str "b", .str "c", .str "d", .str "e", .str "f"]) =
      some [.str "f"] := by
  simp [sliceRead, normalizeIndex, usizeOfInt, usub, iwrap, USIZE, ISIZE, stepBy]

/-! ## The streaming mutation visitor (src/write_visitor.rs)

`WriteVisitor` implements the `cbor_data::Visitor` callback contract.
The `Path` type it manipulates (`is_parent`, `pop`, `append_idx`,
`append_key` in place) is repository code not present under `src/`, and
the traversal driver (`Cbor::visit`) belongs to the external codec;
both are modelled from the spec (§4.3/§6): the driver visits a scalar
through `visit_simple`; an array through `visit_array_begin`, then — if
`begin` returned `true` — `visit_array_index` followed by the
recursive visit of each element, and in all cases `visit_array_end`;
a map likewise with `visit_dict_begin`, `visit_dict_key` (the key is
not visited as an item) before each recursively visited value, and
`visit_dict_end`.  The visitor's stack of open-container accumulators
(`pending_items`, a Rust `Vec` pushed/popped at its end) is modelled
with the top at the head of the list; each accumulator keeps its items
in push order. -/

/-- Modelled from the spec: `Path::is_parent` — the current location is
a parent of a target location iff it is a *strict* prefix of it ("else
if current_location is a strict prefix of some target, descend"). -/
def isParent : Path → Path → Bool
  | [], [] => false
  | [], _ :: _ => true
  | _ :: _, [] => false
  | a :: p', b :: q' => a == b && isParent p' q'

/-- The traversal state of `WriteVisitor`: the stack of open-container
accumulators, the mutable current location, and the `skip_end` /
`is_key` flags. -/
structure VisitorState : Type where
  pendingItems : List (List CborVal)
  currentPath : Path
  skipEnd : Bool
  isKey : Bool
  deriving Repr

/-- The initial visitor state (`WriteVisitor::new`): one empty
accumulator, empty path, flags down. -/
def initVisitorState : VisitorState :=
  ⟨[[]], [], false, false⟩

/-- Embedding of `WriteVisitor::visit_simple` (src/write_visitor.rs
lines 47-70): a scalar at an exact target is replaced by `f(item)`, or
deleted — retracting the key that was just pushed, when the scalar is
a map value; any other scalar passes through unchanged.  `is_key` is
reset in every case. -/
def visitSimple {ε : Type} (paths : List Path)
    (f : CborVal → Except ε (Option CborVal)) (item : CborVal)
    (st : VisitorState) : Except ε VisitorState :=
  match st.pendingItems with
  | pending :: restStack =>
    if paths.any (fun p => st.currentPath == p) then
      match f item with
      | .error e => .error e
      | .ok (some newValue) =>
        .ok { st with pendingItems := (pending ++ [newValue]) :: restStack,
                      isKey := false }
      | .ok none =>
        .ok { st with
          pendingItems :=
            (if st.isKey then pending.dropLast else pending) :: restStack,
          isKey := false }
    else
      .ok { st with pendingItems := (pending ++ [item]) :: restStack,
                    isKey := false }
  | [] => .ok { st with isKey := false }

/-- Embedding of `WriteVisitor::visit_array_begin` (lines 72-102): if
the current location is a strict prefix of some target, push a fresh
accumulator and descend; otherwise the whole array is replaced by
`f(array)` when it is itself a target (or passed through unchanged),
the key just pushed is retracted on deletion, and `skip_end` is set.
When the accumulator stack is empty the transform is not invoked. -/
def visitArrayBegin {ε : Type} (paths : List Path)
    (f : CborVal → Except ε (Option CborVal)) (arrayVal : CborVal)
    (st : VisitorState) : Except ε (Bool × VisitorState) :=
  if paths.any (fun p => isParent st.currentPath p) then
    .ok (true, { st with pendingItems := [] :: st.pendingItems })
  else
    match st.pendingItems with
    | pending :: restStack =>
      match
        (if paths.any (fun p => st.currentPath == p) then f arrayVal
          else .ok (some arrayVal)) with
      | .error e => .error e
      | .ok (some item) =>
        .ok (false, { st with
          pendingItems := (pending ++ [item]) :: restStack,
          skipEnd := true })
      | .ok none =>
        .ok (false, { st with
          pendingItems :=
            (if st.isKey then pending.dropLast else pending) :: restStack,
          skipEnd := true })
    | [] => .ok (false, { st with skipEnd := true })

/-- Embedding of `WriteVisitor::visit_array_index` (lines 104-110):
replace the last path element on sibling advance, then append the new
index. -/
def visitArrayIndex (index : Nat) (st : VisitorState) : VisitorState :=
  { st with currentPath :=
      (if index > 0 then st.currentPath.dropLast else st.currentPath) ++
        [.index index] }

/-- Embedding of `WriteVisitor::visit_array_end` (lines 112-130): when
not skipped, pop the accumulator, pop the path, rebuild the array and
push it into the parent accumulator. -/
def visitArrayEnd (st : VisitorState) : VisitorState :=
  if st.skipEnd then { st with skipEnd := false }
  else
    match st.pendingItems with
    | pending :: restStack =>
      let st' := { st with currentPath := st.currentPath.dropLast }
      let item := CborVal.array pending
      match restStack with
      | parent :: rest2 =>
        { st' with pendingItems := (parent ++ [item]) :: rest2 }
      | [] => { st' with pendingItems := [] }
    | [] => st

/-- Embedding of `WriteVisitor::visit_dict_begin` (lines 132-158): as
`visit_array_begin`, except that the transform of a matched map is
invoked before the accumulator stack is inspected. -/
def visitDictBegin {ε : Type} (paths : List Path)
    (f : CborVal → Except ε (Option CborVal)) (dictVal : CborVal)
    (st : VisitorState) : Except ε (Bool × VisitorState) :=
  if paths.any (fun p => isParent st.currentPath p) then
    .ok (true, { st with pendingItems := [] :: st.pendingItems })
  else
    match
      (if paths.any (fun p => st.currentPath == p) then f dictVal
        else .ok (some dictVal)) with
    | .error e => .error e
    | .ok item =>
      match st.pendingItems with
      | pending :: restStack =>
        match item with
        | some item =>
          .ok (false, { st with
            pendingItems := (pending ++ [item]) :: restStack,
            skipEnd := true })
        | none =>
          .ok (false, { st with
            pendingItems :=
              (if st.isKey then pending.dropLast else pending) :: restStack,
            skipEnd := true })
      | [] => .ok (false, { st with skipEnd := true })

/-- Embedding of `WriteVisitor::visit_dict_key` (lines 161-182):
replace the last path element on sibling advance, push the key into
the accumulator, append the key to the path and raise `is_key`. -/
def visitDictKey (key : CborVal) (isFirst : Bool) (st : VisitorState) :
    VisitorState :=
  let cp := if !isFirst then st.currentPath.dropLast else st.currentPath
  let pi :=
    match st.pendingItems with
    | pending :: restStack => (pending ++ [key]) :: restStack
    | [] => st.pendingItems
  { st with pendingItems := pi, currentPath := cp ++ [.key key],
            isKey := true }

/-- Reassemble the alternating key/value items of a map accumulator
into entries (the `while let` loop of `visit_dict_end`); a trailing
unpaired key is dropped. -/
def pairUp : List CborVal → List (CborVal × CborVal)
  | k :: v :: rest => (k, v) :: pairUp rest
  | _ => []

/-- Embedding of `WriteVisitor::visit_dict_end` (lines 184-208). -/
def visitDictEnd (st : VisitorState) : VisitorState :=
  if st.skipEnd then { st with skipEnd := false }
  else
    match st.pendingItems with
    | pending :: restStack =>
      let st' := { st with currentPath := st.currentPath.dropLast }
      let item := CborVal.dict (pairUp pending)
      match restStack with
      | parent :: rest2 =>
        { st' with pendingItems := (parent ++ [item]) :: rest2 }
      | [] => { st' with pendingItems := [] }
    | [] => st

mutual

/-- Modelled from the spec: the codec's visitor driver (`Cbor::visit`,
§6 boundary) — scalars go to `visit_simple`; containers to their
`begin` callback, their children (with `visit_array_index` /
`visit_dict_key` before each) only when `begin` returned `true`, and
their `end` callback in every case. -/
def visitValue {ε : Type} (paths : List Path)
    (f : CborVal → Except ε (Option CborVal)) :
    CborVal → VisitorState → Except ε VisitorState
  | .array items, st => do
    let (b, st1) ← visitArrayBegin paths f (.array items) st
    if b then
      let st2 ← visitElems paths f items 0 st1
      pure (visitArrayEnd st2)
    else
      pure (visitArrayEnd st1)
  | .dict entries, st => do
    let (b, st1) ← visitDictBegin paths f (.dict entries) st
    if b then
      let st2 ← visitEntries paths f entries true st1
      pure (visitDictEnd st2)
    else
      pure (visitDictEnd st1)
  | .pos n, st => visitSimple paths f (.pos n) st
  | .neg n, st => visitSimple paths f (.neg n) st
  | .bool b, st => visitSimple paths f (.bool b) st
  | .simple n, st => visitSimple paths f (.simple n) st
  | .bytes bs, st => visitSimple paths f (.bytes bs) st
  | .str s, st => visitSimple paths f (.str s) st
  | .null, st => visitSimple paths f .null st

/-- The driver's loop over array elements. -/
def visitElems {ε : Type} (paths : List Path)
    (f : CborVal → Except ε (Option CborVal)) :
    List CborVal → Nat → VisitorState → Except ε VisitorState
  | [], _, st => pure st
  | v :: rest, i, st => do
    let st1 := visitArrayIndex i st
    let st2 ← visitValue paths f v st1
    visitElems paths f rest (i + 1) st2

/-- The driver's loop over map entries. -/
def visitEntries {ε : Type} (paths : List Path)
    (f : CborVal → Except ε (Option CborVal)) :
    List (CborVal × CborVal) → Bool → VisitorState → Except ε VisitorState
  | [], _, st => pure st
  | (k, v) :: rest, isFirst, st => do
    let st1 := visitDictKey k isFirst st
    let st2 ← visitValue paths f v st1
    visitEntries paths f rest false st2

end

/-- Embedding of `WriteVisitor::get_cbor` (lines 32-41): pop the top
accumulator and take its last item; either `pop` returning `None` is
`unreachable!()`, i.e. a panic, modelled as `none`. -/
def getCbor (st : VisitorState) : Option CborVal :=
  match st.pendingItems with
  | top :: _ =>
    match top.getLast? with
    | some v => some v
    | none => none
  | [] => none

/-- Modelled from the spec: `write` (§6) runs the visitor traversal
over the document with the target location set and the user transform,
propagating a transform error unchanged, and extracts the rebuilt
document with `get_cbor`.  The outer `Option` models the
`unreachable!()` panic of `get_cbor`. -/
def runWrite {ε : Type} (doc : CborVal) (paths : List Path)
    (f : CborVal → Except ε (Option CborVal)) : Option (Except ε CborVal) :=
  match visitValue paths f doc initVisitorState with
  | .error e => some (.error e)
  | .ok st => (getCbor st).map Except.ok

/-! ## Properties of the mutation visitor -/

theorem exceptOkBind {ε α β : Type} (a : α) (g : α → Except ε β) :
    (Except.ok a : Except ε α) >>= g = g a := rfl

theorem exceptErrorBind {ε α β : Type} (e : ε) (g : α → Except ε β) :
    (Except.error e : Except ε α) >>= g = Except.error e := rfl

theorem exceptPureEq {ε α : Type} (a : α) :
    (pure a : Except ε α) = Except.ok a := rfl

theorem exceptBindErrorElim {ε α β : Type} {x : Except ε α}
    {g : α → Except ε β} {e : ε} (h : x >>= g = Except.error e) :
    x = Except.error e ∨ ∃ a, x = Except.ok a ∧ g a = Except.error e := by
  cases x with
  | error e2 =>
    rw [exceptErrorBind] at h
    injection h with h2
    subst h2
    exact Or.inl rfl
  | ok a =>
    rw [exceptOkBind] at h
    exact Or.inr ⟨a, rfl, h⟩

theorem visitSimple_error {ε : Type} {paths : List Path}
    {f : CborVal → Except ε (Option CborVal)} {item : CborVal}
    {st : VisitorState} {e : ε}
    (h : visitSimple paths f item st = Except.error e) :
    f item = Except.error e := by
  cases hp : st.pendingItems with
  | nil => simp [visitSimple, hp] at h
  | cons pending rest =>
    by_cases hm : paths.any (fun p => st.currentPath == p)
    · cases hf : f item with
      | error e2 =>
        simp [visitSimple, hp, hm, hf] at h
        rw [h]
      | ok o => cases o <;> simp [visitSimple, hp, hm, hf] at h
    · simp [visitSimple, hp, hm] at h

theorem visitArrayBegin_error {ε : Type} {paths : List Path}
    {f : CborVal → Except ε (Option CborVal)} {arrayVal : CborVal}
    {st : VisitorState} {e : ε}
    (h : visitArrayBegin paths f arrayVal st = Except.error e) :
    f arrayVal = Except.error e := by
  by_cases hpar : paths.any (fun p => isParent st.currentPath p)
  · simp [visitArrayBegin, hpar] at h
  · cases hp : st.pendingItems with
    | nil => simp [visitArrayBegin, hpar, hp] at h
    | cons pending rest =>
      by_cases hm : paths.any (fun p => st.currentPath == p)
      · cases hf : f arrayVal with
        | error e2 =>
          simp [visitArrayBegin, hpar, hp, hm, hf] at h
          rw [h]
        | ok o => cases o <;> simp [visitArrayBegin, hpar, hp, hm, hf] at h
      · simp [visitArrayBegin, hpar, hp, hm] at h

theorem visitDictBegin_error {ε : Type} {paths : List Path}
    {f : CborVal → Except ε (Option CborVal)} {dictVal : CborVal}
    {st : VisitorState} {e : ε}
    (h : visitDictBegin paths f dictVal st = Except.error e) :
    f dictVal = Except.error e := by
  by_cases hpar : paths.any (fun p => isParent st.currentPath p)
  · simp [visitDictBegin, hpar] at h
  · by_cases hm : paths.any (fun p => st.currentPath == p)
    · cases hf : f dictVal with
      | error e2 =>
        simp [visitDictBegin, hpar, hm, hf] at h
        rw [h]
      | ok o =>
        cases hp : st.pendingItems with
        | nil => cases o <;> simp [visitDictBegin, hpar, hm, hf, hp] at h
        | cons pending rest =>
          cases o <;> simp [visitDictBegin, hpar, hm, hf, hp] at h
    · cases hp : st.pendingItems with
      | nil => simp [visitDictBegin, hpar, hm, hp] at h
      | cons pending rest => simp [visitDictBegin, hpar, hm, hp] at h

mutual

theorem visitValue_error {ε : Type} :
    ∀ (paths : List Path) (f : CborVal → Except ε (Option CborVal))
      (v : CborVal) (st : VisitorState) (e : ε),
      visitValue paths f v st = Except.error e →
      ∃ w, f w = Except.error e
  | paths, f, .pos n, st, e, h => by
    rw [visitValue] at h
    exact ⟨.pos n, visitSimple_error h⟩
  | paths, f, .neg n, st, e, h => by
    rw [visitValue] at h
    exact ⟨.neg n, visitSimple_error h⟩
  | paths, f, .bool b, st, e, h => by
    rw [visitValue] at h
    exact ⟨.bool b, visitSimple_error h⟩
  | paths, f, .simple n, st, e, h => by
    rw [visitValue] at h
    exact ⟨.simple n, visitSimple_error h⟩
  | paths, f, .bytes bs, st, e, h => by
    rw [visitValue] at h
    exact ⟨.bytes bs, visitSimple_error h⟩
  | paths, f, .str s, st, e, h => by
    rw [visitValue] at h
    exact ⟨.str s, visitSimple_error h⟩
  | paths, f, .null, st, e, h => by
    rw [visitValue] at h
    exact ⟨.null, visitSimple_error h⟩
  | paths, f, .array items, st, e, h => by
    rw [visitValue] at h
    rcases exceptBindErrorElim h with hb | ⟨⟨b, st1⟩, _, hg⟩
    · exact ⟨.array items, visitArrayBegin_error hb⟩
    · cases b with
      | false => simp [exceptPureEq] at hg
      | true =>
        simp only [if_true] at hg
        rcases exceptBindErrorElim hg with he | ⟨st2, _, hp⟩
        · exact visitElems_error paths f items 0 st1 e he
        · simp [exceptPureEq] at hp
  | paths, f, .dict entries, st, e, h => by
    rw [visitValue] at h
    rcases exceptBindErrorElim h with hb | ⟨⟨b, st1⟩, _, hg⟩
    · exact ⟨.dict entries, visitDictBegin_error hb⟩
    · cases b with
      | false => simp [exceptPureEq] at hg
      | true =>
        simp only [if_true] at hg
        rcases exceptBindErrorElim hg with he | ⟨st2, _, hp⟩
        · exact visitEntries_error paths f entries true st1 e he
        · simp [exceptPureEq] at hp
  termination_by paths f v st e h => (sizeOf v, 0)

theorem visitElems_error {ε : Type} :
    ∀ (paths : List Path) (f : CborVal → Except ε (Option CborVal))
      (l : List CborVal) (i : Nat) (st : VisitorState) (e : ε),
      visitElems paths f l i st = Except.error e →
      ∃ w, f w = Except.error e
  | paths, f, [], i, st, e, h => by
    rw [visitElems] at h
    simp [exceptPureEq] at h
  | paths, f, v :: rest, i, st, e, h => by
    rw [visitElems] at h
    rcases exceptBindErrorElim h with hv | ⟨st2, _, hr⟩
    · exact visitValue_error paths f v (visitArrayIndex i st) e hv
    · exact visitElems_error paths f rest (i + 1) st2 e hr
  termination_by paths f l i st e h => (sizeOf l, 1)

theorem visitEntries_error {ε : Type} :
    ∀ (paths : List Path) (f : CborVal → Except ε (Option CborVal))
      (l : List (CborVal × CborVal)) (isFirst : Bool) (st : VisitorState)
      (e : ε),
      visitEntries paths f l isFirst st = Except.error e →
      ∃ w, f w = Except.error e
  | paths, f, [], isFirst, st, e, h => by
    rw [visitEntries] at h
    simp [exceptPureEq] at h
  | paths, f, (k, v) :: rest, isFirst, st, e, h => by
    rw [visitEntries] at h
    rcases exceptBindErrorElim h with hv | ⟨st2, _, hr⟩
    · exact visitValue_error paths f v (visitDictKey k isFirst st) e hv
    · exact visitEntries_error paths f rest false st2 e hr
  termination_by paths f l isFirst st e h => (sizeOf l, 1)

end

/-- C8: the claim says deleting an array-element target removes exactly
that element, leaving the siblings intact.  The code diverges: on the
document `{"a": [[1], 2]}` with target location `["a", 1]`, deleting the
element `2` also removes its sibling `[1]`, because the `is_key` flag
raised when the key `"a"` was pushed is never reset by the pass-through
`visit_array_begin` of the sibling (the `false` branch of
`visit_array_begin` does not clear `is_key`), so the deletion in
`visit_simple` wrongly pops the sibling from the accumulator: the
result is `{"a": []}` instead of `{"a": [[1]]}`. -/
theorem claim_C8_delete_stale_key :
    runWrite (CborVal.dict [(.str "a", .array [.array [.pos 1], .pos 2])])
        [[PathElem.key (.str "a"), PathElem.index 1]]
        (fun _ => (Except.ok none : Except Unit (Option CborVal))) =
      some (Except.ok (CborVal.dict [(.str "a", .array [])])) ∧
    CborVal.dict [(.str "a", .array [])] ≠
      CborVal.dict [(.str "a", .array [.array [.pos 1]])] := by
  constructor
  · simp [runWrite, initVisitorState, visitValue, visitElems, visitEntries,
      visitSimple, visitArrayBegin, visitArrayIndex, visitArrayEnd,
      visitDictBegin, visitDictKey, visitDictEnd, isParent, pairUp, getCbor,
      exceptOkBind, exceptErrorBind, exceptPureEq]
  · decide

/-- C9: whenever the mutation traversal of a document over a target
location set returns an error, that error is one returned by the user
transform at some visited value, propagated unchanged, and no
(partial) mutated document accompanies it. -/
theorem claim_C9_error_propagation {ε : Type} (doc : CborVal)
    (paths : List Path) (f : CborVal → Except ε (Option CborVal)) (e : ε)
    (h : runWrite doc paths f = some (Except.error e)) :
    ∃ v, f v = Except.error e := by
  unfold runWrite at h
  cases hv : visitValue paths f doc initVisitorState with
  | error e2 =>
    rw [hv] at h
    simp at h
    subst h
    exact visitValue_error paths f doc initVisitorState e2 hv
  | ok st =>
    rw [hv] at h
    cases getCbor st <;> simp at h

theorem claim_C9_witness :
    ∃ v : CborVal,
      (fun _ : CborVal => (Except.error 7 : Except Nat (Option CborVal))) v =
        Except.error 7 :=
  claim_C9_error_propagation (.pos 1) [[]]
    (fun _ => (Except.error 7 : Except Nat (Option CborVal))) 7
    (by simp [runWrite, initVisitorState, visitValue, visitSimple, getCbor])

/-- C10: when the target location set is the root location and the user
transform deletes the root item, `get_cbor` finds the accumulator
empty after the traversal and hits its `unreachable!()` branch — in the
embedding `runWrite` returns `none`: root deletion is not a
representable outcome of the mutation visitor. -/
theorem claim_C10_root_delete_panics {ε : Type} (doc : CborVal)
    (f : CborVal → Except ε (Option CborVal)) (h : f doc = Except.ok none) :
    runWrite doc [[]] f = none := by
  cases doc <;>
    simp [runWrite, initVisitorState, visitValue, visitSimple,
      visitArrayBegin, visitDictBegin, visitArrayEnd, visitDictEnd,
      isParent, getCbor, h, exceptOkBind, exceptErrorBind, exceptPureEq]

theorem claim_C10_witness :
    runWrite (CborVal.pos 1) [[]]
      (fun _ : CborVal => (Except.ok none : Except Unit (Option CborVal))) =
      none :=
  claim_C10_root_delete_panics (.pos 1)
    (fun _ => (Except.ok none : Except Unit (Option CborVal))) rfl

end CborPath
